import Mathlib

/-!
Verification of the prose markdown-to-HTML converter's parser
(`src/parser.rs`, `src/entity.rs`, `src/main.rs`) against its
natural-language specification.

The parser is written with the `nom` combinator library over `&str`.
We embed the input as `List Char` and a parser as a function
`List Char → Option (List Char × α)`, mirroring nom's
`IResult<&str, T> = Result<(&str, T), Err>`: `some (rest, value)` is
`Ok((rest, value))` and `none` is a recoverable `Err::Error` (the code
never uses `cut`, so no `Err::Failure` arises).
-/

set_option maxRecDepth 10000

/-- A parser over character lists: `some (rest, value)` on success. -/
abbrev Parser (α : Type) : Type := List Char → Option (List Char × α)

/-- Characters of a string literal, used to transcribe the Rust `&str` literals. -/
def s2l (s : String) : List Char := s.data

namespace Nom

/-- `nom::bytes::complete::tag(t)`: succeeds iff `t` is a prefix of the input,
consuming it and returning it. -/
def tag (t : List Char) : Parser (List Char) := fun i =>
  if t.isPrefixOf i then some (i.drop t.length, t) else none

/-- `nom::bytes::complete::is_not(s)`: the longest nonempty prefix containing
no character of `s`; errors if that prefix is empty. -/
def is_not (s : List Char) : Parser (List Char) := fun i =>
  if (i.takeWhile (fun c => !s.contains c)) = [] then none
  else some (i.dropWhile (fun c => !s.contains c), i.takeWhile (fun c => !s.contains c))

/-- `nom::bytes::complete::take(1u8)` on `&str`: one character, or error on
empty input. -/
def take1 : Parser (List Char) := fun i =>
  match i with
  | [] => none
  | c :: r => some (r, [c])

/-- `nom::bytes::complete::take_while1(f)`: the longest nonempty prefix of
characters satisfying `f`; errors if empty. -/
def take_while1 (f : Char → Bool) : Parser (List Char) := fun i =>
  if i.takeWhile f = [] then none
  else some (i.dropWhile f, i.takeWhile f)

/-- Helper for `take_until`: scan for the first position where `t` is a prefix. -/
def take_until_go (t : List Char) : List Char → Option (List Char × List Char)
  | [] => if t.isPrefixOf ([] : List Char) then some ([], []) else none
  | c :: r =>
    if t.isPrefixOf (c :: r) then some (c :: r, [])
    else
      match take_until_go t r with
      | none => none
      | some (rem, v) => some (rem, c :: v)

/-- `nom::bytes::complete::take_until(t)`: everything up to (excluding) the
first occurrence of `t`; errors if `t` never occurs. -/
def take_until (t : List Char) : Parser (List Char) := fun i => take_until_go t i

/-- `nom::character::complete::alphanumeric0`: the longest (possibly empty)
prefix of ASCII alphanumeric characters. -/
def alphanumeric0 : Parser (List Char) := fun i =>
  some (i.dropWhile Char.isAlphanum, i.takeWhile Char.isAlphanum)

/-- `nom::branch::alt`: first alternative to succeed wins (modelled on a list
of parsers instead of nom's tuple). -/
def alt {α : Type} : List (Parser α) → Parser α
  | [] => fun _ => none
  | p :: ps => fun i =>
    match p i with
    | some r => some r
    | none => alt ps i

/-- `nom::character::complete::line_ending`: `"\n"` or `"\r\n"`. -/
def line_ending : Parser (List Char) := alt [tag (s2l "\n"), tag (s2l "\r\n")]

/-- `nom::combinator::map`. -/
def map {α β : Type} (p : Parser α) (f : α → β) : Parser β := fun i =>
  match p i with
  | none => none
  | some (r, a) => some (r, f a)

/-- `nom::combinator::not`: succeeds (consuming nothing) iff `p` fails. -/
def not {α : Type} (p : Parser α) : Parser Unit := fun i =>
  match p i with
  | some _ => none
  | none => some (i, ())

/-- `nom::sequence::preceded`. -/
def preceded {α β : Type} (a : Parser α) (b : Parser β) : Parser β := fun i =>
  match a i with
  | none => none
  | some (r, _) => b r

/-- `nom::sequence::terminated`. -/
def terminated {α β : Type} (a : Parser α) (b : Parser β) : Parser α := fun i =>
  match a i with
  | none => none
  | some (r, x) =>
    match b r with
    | none => none
    | some (r2, _) => some (r2, x)

/-- `nom::sequence::delimited`. -/
def delimited {α β γ : Type} (a : Parser α) (b : Parser β) (c : Parser γ) :
    Parser β := fun i =>
  match a i with
  | none => none
  | some (r, _) =>
    match b r with
    | none => none
    | some (r2, x) =>
      match c r2 with
      | none => none
      | some (r3, _) => some (r3, x)

/-- `nom::sequence::pair` (also used to model `tuple` via nesting). -/
def pair {α β : Type} (a : Parser α) (b : Parser β) : Parser (α × β) := fun i =>
  match a i with
  | none => none
  | some (r, x) =>
    match b r with
    | none => none
    | some (r2, y) => some (r2, (x, y))

/-- Fuelled loop of `nom::multi::many0`.  nom's `many0` stops accumulating at
the first failure of the inner parser and errors (to prevent an infinite loop)
if the inner parser succeeds without consuming input; since each recursive call
strictly shrinks the input, fuel `i.length + 1` is always sufficient. -/
def many0_go {α : Type} (p : Parser α) : Nat → List Char → Option (List Char × List α)
  | 0, _ => none
  | fuel + 1, i =>
    match p i with
    | none => some (i, [])
    | some (r, a) =>
      if r.length < i.length then
        match many0_go p fuel r with
        | none => none
        | some (r2, as) => some (r2, a :: as)
      else none

/-- `nom::multi::many0`. -/
def many0 {α : Type} (p : Parser α) : Parser (List α) := fun i =>
  many0_go p (i.length + 1) i

/-- `nom::multi::many1`: `p` once, then the `many0` loop. -/
def many1 {α : Type} (p : Parser α) : Parser (List α) := fun i =>
  match p i with
  | none => none
  | some (r, a) =>
    if r.length < i.length then
      match many0 p r with
      | none => none
      | some (r2, as) => some (r2, a :: as)
    else none

end Nom

namespace Entity

/-- `entity.rs`, transcribed verbatim: the shared document-model inline type.
Note that it has NO strikethrough variant. -/
inductive MarkdownInline : Type where
  | Link (label url : List Char)
  | Image (alt url : List Char)
  | InlineCode (code : List Char)
  | Bold (t : List Char)
  | Italic (t : List Char)
  | Plaintext (t : List Char)
deriving DecidableEq, Repr

/-- `entity.rs`: `MarkdownText = Vec<MarkdownInline>`. -/
abbrev MarkdownText : Type := List MarkdownInline

/-- `entity.rs`, transcribed verbatim: the shared document-model block type.
Note that it has NO horizontal-rule variant. -/
inductive Markdown : Type where
  | Heading (level : Nat) (content : MarkdownText)
  | OrderedList (items : List MarkdownText)
  | UnorderedList (items : List MarkdownText)
  | Line (content : MarkdownText)
  | Codeblock (language body : List Char)
deriving DecidableEq, Repr

end Entity

/-- The inline value space actually constructed by `parser.rs`: the rules in
`parse_markdown_inline` build `MarkdownInline::Strike` although `entity.rs`
declares no such variant.  The parser embedding therefore uses this extended
type; `MarkdownInline.toEntity` below is the partial correspondence back to
the `entity.rs` declaration. -/
inductive MarkdownInline : Type where
  | Link (label url : List Char)
  | Image (alt url : List Char)
  | InlineCode (code : List Char)
  | Bold (t : List Char)
  | Italic (t : List Char)
  | Plaintext (t : List Char)
  | Strike (t : List Char)
deriving DecidableEq, Repr

/-- `MarkdownText = Vec<MarkdownInline>` on the parser side. -/
abbrev MarkdownText : Type := List MarkdownInline

/-- The block value space actually constructed by `parser.rs`: `parse_markdown`
builds `Markdown::HorizontalRule` although `entity.rs` declares no such
variant.  `Markdown.toEntity` below is the partial correspondence back to the
`entity.rs` declaration. -/
inductive Markdown : Type where
  | Heading (level : Nat) (content : MarkdownText)
  | OrderedList (items : List MarkdownText)
  | UnorderedList (items : List MarkdownText)
  | Line (content : MarkdownText)
  | Codeblock (language body : List Char)
  | HorizontalRule
deriving DecidableEq, Repr

/-- Correspondence from parser-constructed inline values to the `entity.rs`
model: each variant maps to the variant of the same name; `Strike` has no
counterpart. -/
def MarkdownInline.toEntity : MarkdownInline → Option Entity.MarkdownInline
  | .Link l u => some (.Link l u)
  | .Image a u => some (.Image a u)
  | .InlineCode c => some (.InlineCode c)
  | .Bold t => some (.Bold t)
  | .Italic t => some (.Italic t)
  | .Plaintext t => some (.Plaintext t)
  | .Strike _ => none

/-- Correspondence from parser-constructed block values to the `entity.rs`
model: each variant maps to the variant of the same name (contents mapped
elementwise); `HorizontalRule` has no counterpart. -/
def Markdown.toEntity : Markdown → Option Entity.Markdown
  | .Heading l c => (c.mapM MarkdownInline.toEntity).map (Entity.Markdown.Heading l)
  | .OrderedList items =>
      (items.mapM (fun t : MarkdownText => t.mapM MarkdownInline.toEntity)).map
        Entity.Markdown.OrderedList
  | .UnorderedList items =>
      (items.mapM (fun t : MarkdownText => t.mapM MarkdownInline.toEntity)).map
        Entity.Markdown.UnorderedList
  | .Line c => (c.mapM MarkdownInline.toEntity).map Entity.Markdown.Line
  | .Codeblock l b => some (.Codeblock l b)
  | .HorizontalRule => none

/-- `parser.rs` `parse_horizontal_rule`: `preceded(tag("---"), line_ending)`. -/
def parse_horizontal_rule : Parser (List Char) :=
  Nom.preceded (Nom.tag (s2l "---")) Nom.line_ending

/-- `parser.rs` `parse_boldtext`: `delimited(tag("**"), is_not("**"), tag("**"))`. -/
def parse_boldtext : Parser (List Char) :=
  Nom.delimited (Nom.tag (s2l "**")) (Nom.is_not (s2l "**")) (Nom.tag (s2l "**"))

/-- `parser.rs` `parse_italics`: `delimited(tag("*"), is_not("*"), tag("*"))`. -/
def parse_italics : Parser (List Char) :=
  Nom.delimited (Nom.tag (s2l "*")) (Nom.is_not (s2l "*")) (Nom.tag (s2l "*"))

/-- `parser.rs` `parse_strike`: `delimited(tag("~"), is_not("~"), tag("~"))`. -/
def parse_strike : Parser (List Char) :=
  Nom.delimited (Nom.tag (s2l "~")) (Nom.is_not (s2l "~")) (Nom.tag (s2l "~"))

/-- `parser.rs` `parse_inline_code`: `` delimited(tag("`"), is_not("`"), tag("`")) ``. -/
def parse_inline_code : Parser (List Char) :=
  Nom.delimited (Nom.tag (s2l "`")) (Nom.is_not (s2l "`")) (Nom.tag (s2l "`"))

/-- `parser.rs` `parse_link`. -/
def parse_link : Parser (List Char × List Char) :=
  Nom.pair
    (Nom.delimited (Nom.tag (s2l "[")) (Nom.is_not (s2l "]")) (Nom.tag (s2l "]")))
    (Nom.delimited (Nom.tag (s2l "(")) (Nom.is_not (s2l ")")) (Nom.tag (s2l ")")))

/-- `parser.rs` `parse_image`. -/
def parse_image : Parser (List Char × List Char) :=
  Nom.pair
    (Nom.delimited (Nom.tag (s2l "![")) (Nom.is_not (s2l "]")) (Nom.tag (s2l "]")))
    (Nom.delimited (Nom.tag (s2l "(")) (Nom.is_not (s2l ")")) (Nom.tag (s2l ")")))

/-- `parser.rs` `parse_plaintext`, local `safe_one_char`: one character only
if it does not start any of the special tags. -/
def safe_one_char : Parser (List Char) :=
  Nom.preceded
    (Nom.not (Nom.alt [Nom.tag (s2l "*"), Nom.tag (s2l "`"), Nom.tag (s2l "~"),
      Nom.tag (s2l "["), Nom.tag (s2l "!["), Nom.tag (s2l "\\"),
      Nom.tag (s2l "\n"), Nom.tag (s2l "\r")]))
    Nom.take1

/-- `parser.rs` `parse_plaintext`, local `escaped_char`: a backslash followed
by one of the six escapable characters; yields `&e[1..2]`, i.e. drops the
backslash. -/
def escaped_char : Parser (List Char) :=
  Nom.map
    (Nom.alt [Nom.tag (s2l "\\*"), Nom.tag (s2l "\\`"), Nom.tag (s2l "\\["),
      Nom.tag (s2l "\\]"), Nom.tag (s2l "\\~"), Nom.tag (s2l "\\!")])
    (fun e => e.drop 1)

/-- `parser.rs` `parse_plaintext`: `many1(alt((safe_one_char, escaped_char)))`,
the pieces joined (`v.join("")`) into one string. -/
def parse_plaintext : Parser (List Char) :=
  Nom.map (Nom.many1 (Nom.alt [safe_one_char, escaped_char])) List.flatten

/-- `parser.rs` `parse_markdown_inline`: the alternatives in source order. -/
def parse_markdown_inline : Parser MarkdownInline :=
  Nom.alt [
    Nom.map parse_italics MarkdownInline.Italic,
    Nom.map parse_strike MarkdownInline.Strike,
    Nom.map parse_inline_code MarkdownInline.InlineCode,
    Nom.map parse_boldtext MarkdownInline.Bold,
    Nom.map parse_image (fun e => MarkdownInline.Image e.1 e.2),
    Nom.map parse_link (fun e => MarkdownInline.Link e.1 e.2),
    Nom.map parse_plaintext MarkdownInline.Plaintext]

/-- `parser.rs` `parse_markdown_text`: `terminated(many0(parse_markdown_inline), tag("\n"))`. -/
def parse_markdown_text : Parser MarkdownText :=
  Nom.terminated (Nom.many0 parse_markdown_inline) (Nom.tag (s2l "\n"))

/-- `parser.rs` `parse_header_tag`: `#` characters then a space, mapped to the
count of `#`. -/
def parse_header_tag : Parser Nat :=
  Nom.map (Nom.terminated (Nom.take_while1 (fun c => c == '#')) (Nom.tag (s2l " ")))
    List.length

/-- `parser.rs` `parse_header`: `tuple((parse_header_tag, parse_markdown_text))`. -/
def parse_header : Parser (Nat × MarkdownText) :=
  Nom.pair parse_header_tag parse_markdown_text

/-- `parser.rs` `parse_unordered_list_tag`: `terminated(tag("-"), tag(" "))`. -/
def parse_unordered_list_tag : Parser (List Char) :=
  Nom.terminated (Nom.tag (s2l "-")) (Nom.tag (s2l " "))

/-- `parser.rs` `parse_unordered_list_element`. -/
def parse_unordered_list_element : Parser MarkdownText :=
  Nom.preceded parse_unordered_list_tag parse_markdown_text

/-- `parser.rs` `parse_unordered_list`. -/
def parse_unordered_list : Parser (List MarkdownText) :=
  Nom.many1 parse_unordered_list_element

/-- `nom::character::is_digit(d as u8)` as used in `parse_ordered_list_tag`:
the Rust code truncates the char's scalar value to `u8` before the ASCII
digit-range test. -/
def is_digit_u8 (c : Char) : Bool :=
  48 ≤ c.toNat % 256 && c.toNat % 256 ≤ 57

/-- `parser.rs` `parse_ordered_list_tag`: digits, then `"."`, then `" "`. -/
def parse_ordered_list_tag : Parser (List Char) :=
  Nom.terminated
    (Nom.terminated (Nom.take_while1 (fun d => is_digit_u8 d)) (Nom.tag (s2l ".")))
    (Nom.tag (s2l " "))

/-- `parser.rs` `parse_ordered_list_element`. -/
def parse_ordered_list_element : Parser MarkdownText :=
  Nom.preceded parse_ordered_list_tag parse_markdown_text

/-- `parser.rs` `parse_ordered_list`. -/
def parse_ordered_list : Parser (List MarkdownText) :=
  Nom.many1 parse_ordered_list_element

/-- `parser.rs` `parse_code_block`: `tuple((tag("```"), alphanumeric0,
line_ending, take_until("```"), tag("```")))`, mapped to (language, code);
the 5-tuple is modelled by nested pairs. -/
def parse_code_block : Parser (List Char × List Char) :=
  Nom.map
    (Nom.pair (Nom.tag (s2l "```"))
      (Nom.pair Nom.alphanumeric0
        (Nom.pair Nom.line_ending
          (Nom.pair (Nom.take_until (s2l "```")) (Nom.tag (s2l "```"))))))
    (fun e => (e.2.1, e.2.2.2.1))

/-- The `alt` inside `parser.rs` `parse_markdown`, named for reuse in
theorems: the block alternatives in source order with their constructors. -/
def markdown_block : Parser Markdown :=
  Nom.alt [
    Nom.map parse_horizontal_rule (fun _ => Markdown.HorizontalRule),
    Nom.map parse_header (fun e => Markdown.Heading e.1 e.2),
    Nom.map parse_unordered_list Markdown.UnorderedList,
    Nom.map parse_ordered_list Markdown.OrderedList,
    Nom.map parse_code_block (fun e => Markdown.Codeblock e.1 e.2),
    Nom.map parse_markdown_text Markdown.Line]

/-- `parser.rs` `parse_markdown`: `many1` over the block alternatives. -/
def parse_markdown : Parser (List Markdown) :=
  Nom.many1 markdown_block

-- Sanity examples mirroring the repository's own unit tests.

example : parse_italics (s2l "*here is italic*") = some ([], s2l "here is italic") := by
  decide

example : parse_boldtext (s2l "**here is bold**") = some ([], s2l "here is bold") := by
  decide

example : parse_plaintext (s2l "\\*\\[\\]") = some ([], s2l "*[]") := by decide

example : parse_header (s2l "# h1\n") =
    some ([], (1, [MarkdownInline.Plaintext (s2l "h1")])) := by decide

example : parse_code_block (s2l "```bash\npip install foobar\n```") =
    some ([], (s2l "bash", s2l "pip install foobar\n")) := by decide

example : parse_markdown_text (s2l "here is some plaintext *but what if we italicize?") =
    none := by decide

-- # Helper lemmas for the list-marker claims (C7)

/-- The unordered-list item rule rejects any input whose first character is
accepted by the ordered-list digit test (its `tag("-")` mismatches). -/
theorem unordered_element_none_of_digit (c : Char) (i : List Char)
    (h : is_digit_u8 c = true) : parse_unordered_list_element (c :: i) = none := by
  have hc : c ≠ '-' := by
    intro e
    subst e
    exact absurd h (by decide)
  simp only [parse_unordered_list_element, Nom.preceded, parse_unordered_list_tag,
    Nom.terminated, Nom.tag, s2l, List.isPrefixOf]
  have : ('-' == c) = false := by
    simp [hc]
    intro e
    exact hc e.symm
  simp [this]

/-- The ordered-list item rule rejects any input whose first character is
`'-'` (its leading digit run is empty). -/
theorem ordered_element_none_of_dash (i : List Char) :
    parse_ordered_list_element ('-' :: i) = none := by
  simp only [parse_ordered_list_element, Nom.preceded, parse_ordered_list_tag,
    Nom.terminated, Nom.take_while1, List.takeWhile_cons]
  have : is_digit_u8 '-' = false := by decide
  simp [this]

-- # Claim C1: "#text\n" (heading marker without a space)

/-- Claim C1 counterexample: on the input `"#text\n"` the parse does NOT
return a failure — it succeeds and returns a degraded `Line` block holding
the whole text, so the claim that such input "yields ParseFailure, never a
degraded Line" is false. -/
theorem C1_counterexample :
    parse_markdown (s2l "#text\n") =
      some ([], [Markdown.Line [MarkdownInline.Plaintext (s2l "#text")]]) ∧
    parse_markdown (s2l "#text\n") ≠ none := by
  constructor
  · decide
  · decide

/-- Claim C1 (amended): on `"#text\n"` the heading rule itself fails (the
`#` run is not followed by a space), but the whole-document parse does not
fail: the plain-line fallback consumes the line, yielding
`Line [Plaintext "#text"]` — and in particular no guessed `Heading` block. -/
theorem C1_theorem :
    parse_header_tag (s2l "#text\n") = none ∧
    parse_header (s2l "#text\n") = none ∧
    parse_markdown (s2l "#text\n") =
      some ([], [Markdown.Line [MarkdownInline.Plaintext (s2l "#text")]]) := by
  refine ⟨by decide, by decide, by decide⟩

-- # Claim C4: horizontal rule / strikethrough vs the entity.rs model

/-- Claim C4 counterexample: the grammar does construct
`Markdown::HorizontalRule` and `MarkdownInline::Strike`, but neither value
has a counterpart variant in the `entity.rs` document-model types (their
embedding into `Entity.Markdown` / `Entity.MarkdownInline` is undefined), so
the claim that they "are variants of the shared document-model types" is
false. -/
theorem C4_counterexample :
    parse_markdown (s2l "---\n") = some ([], [Markdown.HorizontalRule]) ∧
    Markdown.toEntity Markdown.HorizontalRule = none ∧
    parse_markdown_inline (s2l "~a~") = some ([], MarkdownInline.Strike (s2l "a")) ∧
    MarkdownInline.toEntity (MarkdownInline.Strike (s2l "a")) = none := by
  refine ⟨by decide, by decide, by decide, by decide⟩

/-- Claim C4 (amended): the block grammar contains the horizontal-rule rule
(`"---"` then a line terminator) and the inline grammar the strikethrough
rule (`"~...~"`), and both are exercised by the parser; but the values they
construct are exactly the ones with no corresponding variant in the
`entity.rs` document-model types (`Markdown.toEntity` and
`MarkdownInline.toEntity` are undefined on them). -/
theorem C4_theorem :
    parse_horizontal_rule (s2l "---\n") = some ([], s2l "\n") ∧
    parse_strike (s2l "~a~") = some ([], s2l "a") ∧
    parse_markdown (s2l "---\n") = some ([], [Markdown.HorizontalRule]) ∧
    Markdown.toEntity Markdown.HorizontalRule = none ∧
    MarkdownInline.toEntity (MarkdownInline.Strike (s2l "a")) = none := by
  refine ⟨by decide, by decide, by decide, by decide, by decide⟩

-- # Claim C5: backslash-escaped delimiters

/-- Claim C5: the line `"\*\[\]\n"` tokenizes to the single inline element
`Plaintext "*[]"` — the backslash escapes are decoded to their literal
characters and no span interpretation happens. -/
theorem C5_theorem :
    parse_markdown_text (s2l "\\*\\[\\]\n") =
      some ([], [MarkdownInline.Plaintext (s2l "*[]")]) := by
  decide

-- # Claim C7: mixed list markers are never merged

/-- Claim C7: `"- a\n1. b\n"` parses to exactly an `UnorderedList` with the
single item `[Plaintext "a"]` followed by an `OrderedList` with the single
item `[Plaintext "b"]`; and in general an item line of one marker kind can
never continue a run of the other kind, because the unordered item rule
fails on any line starting with an ordered-marker digit and the ordered item
rule fails on any line starting with `'-'`. -/
theorem C7_theorem :
    parse_markdown (s2l "- a\n1. b\n") =
      some ([], [Markdown.UnorderedList [[MarkdownInline.Plaintext (s2l "a")]],
                 Markdown.OrderedList [[MarkdownInline.Plaintext (s2l "b")]]]) ∧
    (∀ c i, is_digit_u8 c = true → parse_unordered_list_element (c :: i) = none) ∧
    (∀ i, parse_ordered_list_element ('-' :: i) = none) := by
  refine ⟨by decide, fun c i h => unordered_element_none_of_digit c i h,
    fun i => ordered_element_none_of_dash i⟩

/-- Claim C7 witness: the general parts of `C7_theorem` instantiated at the
concrete marker characters of the example. -/
theorem C7_witness :
    is_digit_u8 '1' = true ∧
    parse_unordered_list_element ('1' :: s2l ". b\n") = none ∧
    parse_ordered_list_element ('-' :: s2l " a\n") = none :=
  ⟨by decide, C7_theorem.2.1 '1' (s2l ". b\n") (by decide),
    C7_theorem.2.2 (s2l " a\n")⟩

-- # Claim C8: fenced code block body preserved verbatim

/-- Claim C8: `parse("```\na`b\n```\n")` yields `Codeblock("", "a`b\n")`: the
body between the fences is preserved byte-for-byte (including the embedded
newline and the single backtick) and is not handed to the inline tokenizer;
the trailing newline after the closing fence additionally parses as an empty
`Line` block. -/
theorem C8_theorem :
    parse_code_block (s2l "```\na`b\n```\n") =
      some (s2l "\n", (s2l "", s2l "a`b\n")) ∧
    parse_markdown (s2l "```\na`b\n```\n") =
      some ([], [Markdown.Codeblock (s2l "") (s2l "a`b\n"), Markdown.Line []]) := by
  refine ⟨by decide, by decide⟩

-- # Generic lemmas about the embedded nom combinators

namespace Nom

/-- The lengths of `takeWhile` and `dropWhile` partition the input length. -/
theorem takeWhile_dropWhile_length (p : Char → Bool) (l : List Char) :
    (l.takeWhile p).length + (l.dropWhile p).length = l.length := by
  induction l with
  | nil => rfl
  | cons a t ih =>
    simp only [List.takeWhile_cons, List.dropWhile_cons]
    cases h : p a
    · simp
    · simp only [if_true]
      simp only [List.length_cons]
      omega

/-- `takeWhile` runs through a block of satisfying characters. -/
theorem takeWhile_append_all {p : Char → Bool} {l1 : List Char} (l2 : List Char)
    (h : ∀ x ∈ l1, p x) : (l1 ++ l2).takeWhile p = l1 ++ l2.takeWhile p := by
  induction l1 with
  | nil => simp
  | cons a l ih =>
    simp only [List.cons_append, List.takeWhile_cons]
    rw [h a (by simp)]
    simp only [if_true]
    rw [ih (fun x hx => h x (by simp [hx]))]

/-- `dropWhile` runs through a block of satisfying characters. -/
theorem dropWhile_append_all {p : Char → Bool} {l1 : List Char} (l2 : List Char)
    (h : ∀ x ∈ l1, p x) : (l1 ++ l2).dropWhile p = l2.dropWhile p := by
  induction l1 with
  | nil => simp
  | cons a l ih =>
    simp only [List.cons_append, List.dropWhile_cons]
    rw [h a (by simp)]
    simp only [if_true]
    exact ih (fun x hx => h x (by simp [hx]))

/-- Success characterization of `tag`. -/
theorem tag_eq_some {t i r v : List Char} :
    tag t i = some (r, v) ↔ v = t ∧ i = t ++ r := by
  constructor
  · intro h
    unfold tag at h
    by_cases hp : t.isPrefixOf i
    · simp only [hp, if_true, Option.some.injEq, Prod.mk.injEq] at h
      obtain ⟨hr, hv⟩ := h
      refine ⟨hv.symm, ?_⟩
      have := List.prefix_iff_eq_append.mp (List.isPrefixOf_iff_prefix.mp hp)
      rw [← this, hr]
    · simp [tag, hp] at h
  · rintro ⟨hv, hi⟩
    subst hv hi
    unfold tag
    have hp : v.isPrefixOf (v ++ r) :=
      List.isPrefixOf_iff_prefix.mpr (List.prefix_append v r)
    simp [hp, List.drop_left]

/-- `tag` consumes exactly its pattern. -/
theorem tag_self_append (t r : List Char) : tag t (t ++ r) = some (r, t) :=
  tag_eq_some.mpr ⟨rfl, rfl⟩

/-- `tag` fails when the first characters differ. -/
theorem tag_none_of_head_ne {a c : Char} {t i : List Char} (h : c ≠ a) :
    tag (a :: t) (c :: i) = none := by
  unfold tag
  have : (a :: t).isPrefixOf (c :: i) = false := by
    simp [List.isPrefixOf]
    intro e
    exact absurd e.symm h
  simp [this]

/-- `tag` with a nonempty pattern fails on empty input. -/
theorem tag_cons_nil (a : Char) (t : List Char) : tag (a :: t) [] = none := by
  simp [tag, List.isPrefixOf]

/-- Success characterization of `is_not`. -/
theorem is_not_eq_some {s i r v : List Char} :
    is_not s i = some (r, v) ↔
      v = i.takeWhile (fun c => !s.contains c) ∧ v ≠ [] ∧
        r = i.dropWhile (fun c => !s.contains c) := by
  unfold is_not
  split
  next he =>
    constructor
    · intro h
      exact absurd h (by simp)
    · rintro ⟨hv, hne, _⟩
      exact absurd (hv.trans he) hne
  next he =>
    constructor
    · intro h
      simp only [Option.some.injEq, Prod.mk.injEq] at h
      refine ⟨h.2.symm, ?_, h.1.symm⟩
      rw [← h.2]
      exact he
    · rintro ⟨hv, _, hr⟩
      rw [hv, hr]

/-- `is_not` splits its input as consumed part plus rest. -/
theorem is_not_split {s i r v : List Char} (h : is_not s i = some (r, v)) :
    i = v ++ r ∧ v ≠ [] ∧ ∀ c ∈ v, s.contains c = false := by
  obtain ⟨hv, hne, hr⟩ := is_not_eq_some.mp h
  refine ⟨by rw [hv, hr, List.takeWhile_append_dropWhile], hne, ?_⟩
  intro c hc
  rw [hv] at hc
  have h2 := List.mem_takeWhile_imp hc
  simp only [Bool.not_eq_true'] at h2
  exact h2

/-- `is_not` consumes a clean block followed by a stopping character. -/
theorem is_not_block {s v : List Char} {d : Char} (rest : List Char) (hv : v ≠ [])
    (hall : ∀ c ∈ v, s.contains c = false) (hd : s.contains d = true) :
    is_not s (v ++ d :: rest) = some (d :: rest, v) := by
  apply is_not_eq_some.mpr
  have hall2 : ∀ c ∈ v, (fun c => !s.contains c) c = true := by
    intro c hc
    simp only [Bool.not_eq_true']
    exact hall c hc
  have hd2 : d ∈ s := by simpa using hd
  refine ⟨?_, hv, ?_⟩
  · rw [takeWhile_append_all _ hall2, List.takeWhile_cons]
    simp [hd2]
  · rw [dropWhile_append_all _ hall2, List.dropWhile_cons]
    simp [hd2]

/-- `is_not` consumes its whole input when nothing stops it. -/
theorem is_not_all {s v : List Char} (hv : v ≠ [])
    (hall : ∀ c ∈ v, s.contains c = false) :
    is_not s v = some ([], v) := by
  apply is_not_eq_some.mpr
  have hall2 : ∀ c ∈ v, (fun c => !s.contains c) c = true := by
    intro c hc
    simp only [Bool.not_eq_true']
    exact hall c hc
  exact ⟨(List.takeWhile_eq_self_iff.mpr hall2).symm, hv,
    (List.dropWhile_eq_nil_iff.mpr hall2).symm⟩

/-- `is_not` fails when the very first character is in the stop set. -/
theorem is_not_none_of_head {s i : List Char} {c : Char} (h : s.contains c = true) :
    is_not s (c :: i) = none := by
  have h2 : c ∈ s := by simpa using h
  unfold is_not
  simp [List.takeWhile_cons, h2]

end Nom

namespace Nom

/-- The fuel of `many0_go` is irrelevant once it exceeds the input length. -/
theorem many0_go_congr {α : Type} (p : Parser α) :
    ∀ (f1 f2 : Nat) (i : List Char), i.length < f1 → i.length < f2 →
      many0_go p f1 i = many0_go p f2 i := by
  intro f1
  induction f1 with
  | zero =>
    intro f2 i h1 h2
    omega
  | succ g ih =>
    intro f2 i h1 h2
    cases f2 with
    | zero => omega
    | succ g2 =>
      simp only [many0_go]
      cases hp : p i with
      | none => rfl
      | some ra =>
        obtain ⟨r, a⟩ := ra
        by_cases hlt : r.length < i.length
        · simp only [hlt, if_true]
          rw [ih g2 r (by omega) (by omega)]
        · simp [hlt]

/-- One-step unfolding of `many0` at its natural fuel. -/
theorem many0_unfold {α : Type} (p : Parser α) (i : List Char) :
    many0 p i =
      match p i with
      | none => some (i, [])
      | some (r, a) =>
        if r.length < i.length then
          match many0 p r with
          | none => none
          | some (r2, as) => some (r2, a :: as)
        else none := by
  show many0_go p (i.length + 1) i = _
  simp only [many0_go]
  cases hp : p i with
  | none => rfl
  | some ra =>
    obtain ⟨r, a⟩ := ra
    by_cases hlt : r.length < i.length
    · simp only [hlt, if_true]
      rw [many0_go_congr p i.length (r.length + 1) r (by omega) (by omega)]
      rfl
    · simp [hlt]

/-- A parser that never grows its input. -/
def Noninc {α : Type} (p : Parser α) : Prop :=
  ∀ i r v, p i = some (r, v) → r.length ≤ i.length

/-- A parser that always consumes at least one character on success. -/
def Strict {α : Type} (p : Parser α) : Prop :=
  ∀ i r v, p i = some (r, v) → r.length < i.length

theorem Strict.noninc {α : Type} {p : Parser α} (h : Strict p) : Noninc p :=
  fun i r v hp => Nat.le_of_lt (h i r v hp)

theorem tag_noninc (t : List Char) : Noninc (tag t) := by
  intro i r v h
  obtain ⟨_, hi⟩ := tag_eq_some.mp h
  subst hi
  simp

theorem tag_strict {t : List Char} (ht : t ≠ []) : Strict (tag t) := by
  intro i r v h
  obtain ⟨_, hi⟩ := tag_eq_some.mp h
  subst hi
  have : 0 < t.length := List.length_pos.mpr ht
  simp only [List.length_append]
  omega

theorem is_not_strict (s : List Char) : Strict (is_not s) := by
  intro i r v h
  obtain ⟨hv, hne, hr⟩ := is_not_eq_some.mp h
  have hl := takeWhile_dropWhile_length (fun c => !s.contains c) i
  have : 0 < (i.takeWhile (fun c => !s.contains c)).length := by
    apply List.length_pos.mpr
    rw [← hv]
    exact hne
  rw [hr]
  omega

theorem take1_strict : Strict take1 := by
  intro i r v h
  cases i with
  | nil => exact absurd h (by simp [take1])
  | cons c t =>
    simp only [take1, Option.some.injEq, Prod.mk.injEq] at h
    rw [← h.1]
    simp

theorem take_while1_strict (f : Char → Bool) : Strict (take_while1 f) := by
  intro i r v h
  unfold take_while1 at h
  split at h
  · exact absurd h (by simp)
  next hne =>
    simp only [Option.some.injEq, Prod.mk.injEq] at h
    have hl := takeWhile_dropWhile_length f i
    have : 0 < (i.takeWhile f).length := List.length_pos.mpr hne
    rw [← h.1]
    omega

theorem take_until_noninc (t : List Char) : Noninc (take_until t) := by
  intro i
  induction i with
  | nil =>
    intro r v h
    simp only [take_until, take_until_go] at h
    split at h
    · simp only [Option.some.injEq, Prod.mk.injEq] at h
      rw [← h.1]
    · exact absurd h (by simp)
  | cons c rest ih =>
    intro r v h
    simp only [take_until, take_until_go] at h
    split at h
    · simp only [Option.some.injEq, Prod.mk.injEq] at h
      rw [← h.1]
    · cases hg : take_until_go t rest with
      | none => rw [hg] at h; exact absurd h (by simp)
      | some rv =>
        obtain ⟨rem, v2⟩ := rv
        rw [hg] at h
        simp only [Option.some.injEq, Prod.mk.injEq] at h
        have := ih rem v2 hg
        rw [← h.1]
        simp only [List.length_cons]
        omega

theorem alphanumeric0_noninc : Noninc alphanumeric0 := by
  intro i r v h
  simp only [alphanumeric0, Option.some.injEq, Prod.mk.injEq] at h
  have hl := takeWhile_dropWhile_length Char.isAlphanum i
  rw [← h.1]
  omega

theorem alt_noninc {α : Type} {ps : List (Parser α)} (h : ∀ p ∈ ps, Noninc p) :
    Noninc (alt ps) := by
  induction ps with
  | nil =>
    intro i r v hp
    exact absurd hp (by simp [alt])
  | cons p ps ih =>
    intro i r v hp
    simp only [alt] at hp
    cases hq : p i with
    | none =>
      rw [hq] at hp
      exact ih (fun q hq2 => h q (by simp [hq2])) i r v hp
    | some x =>
      obtain ⟨r2, v2⟩ := x
      rw [hq] at hp
      simp only [Option.some.injEq, Prod.mk.injEq] at hp
      obtain ⟨h1, h2⟩ := hp
      rw [h1, h2] at hq
      exact h p (by simp) i r v hq

theorem alt_strict {α : Type} {ps : List (Parser α)} (h : ∀ p ∈ ps, Strict p) :
    Strict (alt ps) := by
  induction ps with
  | nil =>
    intro i r v hp
    exact absurd hp (by simp [alt])
  | cons p ps ih =>
    intro i r v hp
    simp only [alt] at hp
    cases hq : p i with
    | none =>
      rw [hq] at hp
      exact ih (fun q hq2 => h q (by simp [hq2])) i r v hp
    | some x =>
      obtain ⟨r2, v2⟩ := x
      rw [hq] at hp
      simp only [Option.some.injEq, Prod.mk.injEq] at hp
      obtain ⟨h1, h2⟩ := hp
      rw [h1, h2] at hq
      exact h p (by simp) i r v hq

theorem line_ending_strict : Strict line_ending := by
  apply alt_strict
  intro p hp
  simp only [line_ending, List.mem_cons, List.mem_singleton] at hp
  rcases hp with h | h | h
  · rw [h]; exact tag_strict (by simp [s2l])
  · rw [h]; exact tag_strict (by simp [s2l])
  · exact absurd h (by simp)

theorem map_noninc {α β : Type} {p : Parser α} (f : α → β) (h : Noninc p) :
    Noninc (map p f) := by
  intro i r v hp
  simp only [map] at hp
  cases hq : p i with
  | none => rw [hq] at hp; exact absurd hp (by simp)
  | some x =>
    obtain ⟨r2, a⟩ := x
    rw [hq] at hp
    simp only [Option.some.injEq, Prod.mk.injEq] at hp
    rw [← hp.1]
    exact h i r2 a hq

theorem map_strict {α β : Type} {p : Parser α} (f : α → β) (h : Strict p) :
    Strict (map p f) := by
  intro i r v hp
  simp only [map] at hp
  cases hq : p i with
  | none => rw [hq] at hp; exact absurd hp (by simp)
  | some x =>
    obtain ⟨r2, a⟩ := x
    rw [hq] at hp
    simp only [Option.some.injEq, Prod.mk.injEq] at hp
    rw [← hp.1]
    exact h i r2 a hq


/-- Success characterization of `not`: it consumes nothing and `p` failed. -/
theorem not_eq_some {α : Type} {p : Parser α} {i r : List Char} {u : Unit} :
    Nom.not p i = some (r, u) ↔ p i = none ∧ r = i := by
  unfold Nom.not
  cases hp : p i with
  | none => simp [eq_comm]
  | some x => simp

/-- Success characterization of `map`. -/
theorem map_eq_some {α β : Type} {p : Parser α} {f : α → β} {i r : List Char} {b : β} :
    map p f i = some (r, b) ↔ ∃ a, p i = some (r, a) ∧ b = f a := by
  unfold map
  cases hp : p i with
  | none => simp
  | some x =>
    obtain ⟨r1, a1⟩ := x
    simp only [Option.some.injEq, Prod.mk.injEq]
    constructor
    · rintro ⟨h1, h2⟩
      exact ⟨a1, ⟨h1, rfl⟩, h2.symm⟩
    · rintro ⟨a, ⟨e1, e2⟩, hb⟩
      exact ⟨e1, by rw [hb, e2]⟩

/-- `map` fails exactly when the inner parser fails. -/
theorem map_eq_none {α β : Type} {p : Parser α} {f : α → β} {i : List Char} :
    map p f i = none ↔ p i = none := by
  unfold map
  cases hp : p i with
  | none => simp
  | some x =>
    obtain ⟨r1, a1⟩ := x
    simp

/-- Success characterization of `preceded`. -/
theorem preceded_eq_some {α β : Type} {a : Parser α} {b : Parser β}
    {i r : List Char} {v : β} :
    preceded a b i = some (r, v) ↔
      ∃ r1 w, a i = some (r1, w) ∧ b r1 = some (r, v) := by
  unfold preceded
  cases hq : a i with
  | none => simp
  | some x =>
    obtain ⟨r1, x1⟩ := x
    constructor
    · intro h
      exact ⟨r1, x1, rfl, h⟩
    · rintro ⟨r1b, w, e1, hh⟩
      simp only [Option.some.injEq, Prod.mk.injEq] at e1
      obtain ⟨e2, _⟩ := e1
      subst e2
      exact hh

/-- Success characterization of `terminated`. -/
theorem terminated_eq_some {α β : Type} {a : Parser α} {b : Parser β}
    {i r : List Char} {v : α} :
    terminated a b i = some (r, v) ↔
      ∃ r1 w, a i = some (r1, v) ∧ b r1 = some (r, w) := by
  unfold terminated
  cases hq : a i with
  | none => simp
  | some x =>
    obtain ⟨r1, x1⟩ := x
    cases hq2 : b r1 with
    | none => simp [hq2]
    | some y =>
      obtain ⟨r2, y1⟩ := y
      simp only [hq2, Option.some.injEq, Prod.mk.injEq]
      constructor
      · rintro ⟨h1, h2⟩
        exact ⟨r1, y1, ⟨rfl, h2⟩, by rw [← h1]; exact hq2⟩
      · rintro ⟨r1b, w, ⟨e1, e2⟩, hh2⟩
        subst e1
        rw [hq2] at hh2
        simp only [Option.some.injEq, Prod.mk.injEq] at hh2
        exact ⟨hh2.1, e2⟩

/-- Success characterization of `pair`. -/
theorem pair_eq_some {α β : Type} {a : Parser α} {b : Parser β}
    {i r : List Char} {v : α × β} :
    pair a b i = some (r, v) ↔
      ∃ r1, a i = some (r1, v.1) ∧ b r1 = some (r, v.2) := by
  unfold pair
  obtain ⟨v1, v2⟩ := v
  cases hq : a i with
  | none => simp
  | some x =>
    obtain ⟨r1, x1⟩ := x
    cases hq2 : b r1 with
    | none => simp [hq2]
    | some y =>
      obtain ⟨r2, y1⟩ := y
      simp only [hq2, Option.some.injEq, Prod.mk.injEq]
      constructor
      · rintro ⟨h1, h2, h3⟩
        exact ⟨r1, ⟨rfl, h2⟩, by rw [← h1, ← h3]; exact hq2⟩
      · rintro ⟨r1b, ⟨e1, e2⟩, hh2⟩
        subst e1
        rw [hq2] at hh2
        simp only [Option.some.injEq, Prod.mk.injEq] at hh2
        exact ⟨hh2.1, e2, hh2.2⟩

/-- Success characterization of `delimited`. -/
theorem delimited_eq_some {α β γ : Type} {a : Parser α} {b : Parser β} {c : Parser γ}
    {i r : List Char} {v : β} :
    delimited a b c i = some (r, v) ↔
      ∃ r1 r2 w1 w3, a i = some (r1, w1) ∧ b r1 = some (r2, v) ∧
        c r2 = some (r, w3) := by
  unfold delimited
  cases hq : a i with
  | none => simp
  | some x =>
    obtain ⟨r1, x1⟩ := x
    cases hq2 : b r1 with
    | none =>
      simp only [hq2]
      constructor
      · intro h
        exact absurd h (by simp)
      · rintro ⟨r1b, r2, w1, w3, e1, hh2, _⟩
        simp only [Option.some.injEq, Prod.mk.injEq] at e1
        obtain ⟨e2, _⟩ := e1
        subst e2
        rw [hq2] at hh2
        exact absurd hh2 (by simp)
    | some y =>
      obtain ⟨r2, y1⟩ := y
      cases hq3 : c r2 with
      | none =>
        simp only [hq2, hq3]
        constructor
        · intro h
          exact absurd h (by simp)
        · rintro ⟨r1b, r2b, w1, w3, e1, hh2, hh3⟩
          simp only [Option.some.injEq, Prod.mk.injEq] at e1
          obtain ⟨e4, _⟩ := e1
          subst e4
          rw [hq2] at hh2
          simp only [Option.some.injEq, Prod.mk.injEq] at hh2
          obtain ⟨e2, _⟩ := hh2
          subst e2
          rw [hq3] at hh3
          exact absurd hh3 (by simp)
      | some z =>
        obtain ⟨r3, z1⟩ := z
        simp only [hq2, hq3, Option.some.injEq, Prod.mk.injEq]
        constructor
        · rintro ⟨h1, h2⟩
          refine ⟨r1, r2, x1, z1, ⟨rfl, rfl⟩, by rw [hq2, h2], ?_⟩
          rw [← h1]
          exact hq3
        · rintro ⟨r1b, r2b, w1, w3, e1, hh2, hh3⟩
          obtain ⟨e4, _⟩ := e1
          subst e4
          rw [hq2] at hh2
          simp only [Option.some.injEq, Prod.mk.injEq] at hh2
          obtain ⟨e2, e3⟩ := hh2
          subst e2
          rw [hq3] at hh3
          simp only [Option.some.injEq, Prod.mk.injEq] at hh3
          exact ⟨hh3.1, e3⟩

/-- `alt` on an empty list fails. -/
theorem alt_nil {α : Type} (i : List Char) : alt ([] : List (Parser α)) i = none := rfl

/-- `alt` tries the head first. -/
theorem alt_cons_some {α : Type} {p : Parser α} {ps : List (Parser α)}
    {i : List Char} {x : List Char × α} (h : p i = some x) :
    alt (p :: ps) i = some x := by
  simp [alt, h]

/-- `alt` falls through a failing head. -/
theorem alt_cons_none {α : Type} {p : Parser α} {ps : List (Parser α)}
    {i : List Char} (h : p i = none) :
    alt (p :: ps) i = alt ps i := by
  simp [alt, h]

theorem preceded_noninc {α β : Type} {a : Parser α} {b : Parser β}
    (ha : Noninc a) (hb : Noninc b) : Noninc (preceded a b) := by
  intro i r v h
  obtain ⟨r1, w, h1, h2⟩ := preceded_eq_some.mp h
  exact le_trans (hb r1 r v h2) (ha i r1 w h1)

theorem preceded_strict_left {α β : Type} {a : Parser α} {b : Parser β}
    (ha : Strict a) (hb : Noninc b) : Strict (preceded a b) := by
  intro i r v h
  obtain ⟨r1, w, h1, h2⟩ := preceded_eq_some.mp h
  exact lt_of_le_of_lt (hb r1 r v h2) (ha i r1 w h1)

theorem preceded_strict_right {α β : Type} {a : Parser α} {b : Parser β}
    (ha : Noninc a) (hb : Strict b) : Strict (preceded a b) := by
  intro i r v h
  obtain ⟨r1, w, h1, h2⟩ := preceded_eq_some.mp h
  exact lt_of_lt_of_le (hb r1 r v h2) (ha i r1 w h1)

theorem terminated_noninc {α β : Type} {a : Parser α} {b : Parser β}
    (ha : Noninc a) (hb : Noninc b) : Noninc (terminated a b) := by
  intro i r v h
  obtain ⟨r1, w, h1, h2⟩ := terminated_eq_some.mp h
  exact le_trans (hb r1 r w h2) (ha i r1 v h1)

theorem terminated_strict_left {α β : Type} {a : Parser α} {b : Parser β}
    (ha : Strict a) (hb : Noninc b) : Strict (terminated a b) := by
  intro i r v h
  obtain ⟨r1, w, h1, h2⟩ := terminated_eq_some.mp h
  exact lt_of_le_of_lt (hb r1 r w h2) (ha i r1 v h1)

theorem terminated_strict_right {α β : Type} {a : Parser α} {b : Parser β}
    (ha : Noninc a) (hb : Strict b) : Strict (terminated a b) := by
  intro i r v h
  obtain ⟨r1, w, h1, h2⟩ := terminated_eq_some.mp h
  exact lt_of_lt_of_le (hb r1 r w h2) (ha i r1 v h1)

theorem pair_noninc {α β : Type} {a : Parser α} {b : Parser β}
    (ha : Noninc a) (hb : Noninc b) : Noninc (pair a b) := by
  intro i r v h
  obtain ⟨r1, h1, h2⟩ := pair_eq_some.mp h
  exact le_trans (hb r1 r v.2 h2) (ha i r1 v.1 h1)

theorem pair_strict_left {α β : Type} {a : Parser α} {b : Parser β}
    (ha : Strict a) (hb : Noninc b) : Strict (pair a b) := by
  intro i r v h
  obtain ⟨r1, h1, h2⟩ := pair_eq_some.mp h
  exact lt_of_le_of_lt (hb r1 r v.2 h2) (ha i r1 v.1 h1)

theorem delimited_strict {α β γ : Type} {a : Parser α} {b : Parser β} {c : Parser γ}
    (ha : Strict a) (hb : Noninc b) (hc : Noninc c) : Strict (delimited a b c) := by
  intro i r v h
  obtain ⟨r1, r2, w1, w3, h1, h2, h3⟩ := delimited_eq_some.mp h
  calc r.length ≤ r2.length := hc r2 r w3 h3
    _ ≤ r1.length := hb r1 r2 v h2
    _ < i.length := ha i r1 w1 h1

/-- Bounded-induction core of `many0_noninc`. -/
theorem many0_noninc_aux {α : Type} (p : Parser α) :
    ∀ n (i : List Char), i.length ≤ n →
      ∀ r v, many0 p i = some (r, v) → r.length ≤ i.length := by
  intro n
  induction n with
  | zero =>
    intro i hlen r v h
    have hi : i = [] := List.eq_nil_of_length_eq_zero (Nat.le_zero.mp hlen)
    subst hi
    rw [many0_unfold] at h
    cases hp : p [] with
    | none =>
      rw [hp] at h
      simp only [Option.some.injEq, Prod.mk.injEq] at h
      rw [← h.1]
    | some x =>
      obtain ⟨r1, a⟩ := x
      rw [hp] at h
      simp at h
  | succ n ih =>
    intro i hlen r v h
    rw [many0_unfold] at h
    cases hp : p i with
    | none =>
      rw [hp] at h
      simp only [Option.some.injEq, Prod.mk.injEq] at h
      rw [← h.1]
    | some x =>
      obtain ⟨r1, a⟩ := x
      rw [hp] at h
      simp only at h
      by_cases hlt : r1.length < i.length
      · simp only [hlt, if_true] at h
        cases hm : many0 p r1 with
        | none => rw [hm] at h; exact absurd h (by simp)
        | some y =>
          obtain ⟨r2, as⟩ := y
          rw [hm] at h
          simp only [Option.some.injEq, Prod.mk.injEq] at h
          rw [← h.1]
          have hr1 : r1.length ≤ n := by omega
          exact le_of_lt (lt_of_le_of_lt (ih r1 hr1 r2 as hm) hlt)
      · simp [hlt] at h

/-- `many0` never grows its input. -/
theorem many0_noninc {α : Type} (p : Parser α) : Noninc (many0 p) :=
  fun i => many0_noninc_aux p i.length i (le_refl _)

/-- `many1` always consumes on success (its loop demands progress). -/
theorem many1_strict {α : Type} (p : Parser α) : Strict (many1 p) := by
  intro i r v h
  unfold many1 at h
  cases hp : p i with
  | none => rw [hp] at h; exact absurd h (by simp)
  | some x =>
    obtain ⟨r1, a⟩ := x
    rw [hp] at h
    simp only at h
    by_cases hlt : r1.length < i.length
    · simp only [hlt, if_true] at h
      cases hm : many0 p r1 with
      | none => rw [hm] at h; exact absurd h (by simp)
      | some y =>
        obtain ⟨r2, as⟩ := y
        rw [hm] at h
        simp only [Option.some.injEq, Prod.mk.injEq] at h
        rw [← h.1]
        exact lt_of_le_of_lt (many0_noninc p r1 r2 as hm) hlt
    · simp [hlt] at h

/-- Bounded-induction core of `many0_ne_none`. -/
theorem many0_ne_none_aux {α : Type} {p : Parser α} (hp : Strict p) :
    ∀ n (i : List Char), i.length ≤ n → many0 p i ≠ none := by
  intro n
  induction n with
  | zero =>
    intro i hlen
    have hi : i = [] := List.eq_nil_of_length_eq_zero (Nat.le_zero.mp hlen)
    subst hi
    rw [many0_unfold]
    cases hq : p [] with
    | none => simp
    | some x =>
      obtain ⟨r, a⟩ := x
      have := hp [] r a hq
      simp at this
  | succ n ih =>
    intro i hlen
    rw [many0_unfold]
    cases hq : p i with
    | none => simp
    | some x =>
      obtain ⟨r, a⟩ := x
      have hlt : r.length < i.length := hp i r a hq
      simp only [hlt, if_true]
      cases hm : many0 p r with
      | none => exact absurd hm (ih r (by omega))
      | some y => simp

/-- When the inner parser always consumes, `many0` cannot fail. -/
theorem many0_ne_none {α : Type} {p : Parser α} (hp : Strict p) (i : List Char) :
    many0 p i ≠ none :=
  many0_ne_none_aux hp i.length i (le_refl _)

end Nom

-- # Strictness of the concrete parsers (each consumes input on success)

theorem parse_horizontal_rule_strict : Nom.Strict parse_horizontal_rule :=
  Nom.preceded_strict_left (Nom.tag_strict (by decide)) Nom.line_ending_strict.noninc

theorem parse_boldtext_strict : Nom.Strict parse_boldtext :=
  Nom.delimited_strict (Nom.tag_strict (by decide)) (Nom.is_not_strict _).noninc
    (Nom.tag_noninc _)

theorem parse_italics_strict : Nom.Strict parse_italics :=
  Nom.delimited_strict (Nom.tag_strict (by decide)) (Nom.is_not_strict _).noninc
    (Nom.tag_noninc _)

theorem parse_strike_strict : Nom.Strict parse_strike :=
  Nom.delimited_strict (Nom.tag_strict (by decide)) (Nom.is_not_strict _).noninc
    (Nom.tag_noninc _)

theorem parse_inline_code_strict : Nom.Strict parse_inline_code :=
  Nom.delimited_strict (Nom.tag_strict (by decide)) (Nom.is_not_strict _).noninc
    (Nom.tag_noninc _)

theorem parse_link_strict : Nom.Strict parse_link :=
  Nom.pair_strict_left
    (Nom.delimited_strict (Nom.tag_strict (by decide)) (Nom.is_not_strict _).noninc
      (Nom.tag_noninc _))
    (Nom.delimited_strict (Nom.tag_strict (by decide)) (Nom.is_not_strict _).noninc
      (Nom.tag_noninc _)).noninc

theorem parse_image_strict : Nom.Strict parse_image :=
  Nom.pair_strict_left
    (Nom.delimited_strict (Nom.tag_strict (by decide)) (Nom.is_not_strict _).noninc
      (Nom.tag_noninc _))
    (Nom.delimited_strict (Nom.tag_strict (by decide)) (Nom.is_not_strict _).noninc
      (Nom.tag_noninc _)).noninc

theorem parse_plaintext_strict : Nom.Strict parse_plaintext :=
  Nom.map_strict _ (Nom.many1_strict _)

theorem parse_markdown_inline_strict : Nom.Strict parse_markdown_inline := by
  apply Nom.alt_strict
  intro p hp
  simp only [parse_markdown_inline, List.mem_cons, List.not_mem_nil, or_false] at hp
  rcases hp with h | h | h | h | h | h | h
  all_goals subst h
  · exact Nom.map_strict _ parse_italics_strict
  · exact Nom.map_strict _ parse_strike_strict
  · exact Nom.map_strict _ parse_inline_code_strict
  · exact Nom.map_strict _ parse_boldtext_strict
  · exact Nom.map_strict _ parse_image_strict
  · exact Nom.map_strict _ parse_link_strict
  · exact Nom.map_strict _ parse_plaintext_strict

theorem parse_markdown_text_strict : Nom.Strict parse_markdown_text :=
  Nom.terminated_strict_right (Nom.many0_noninc _) (Nom.tag_strict (by decide))

theorem parse_header_tag_strict : Nom.Strict parse_header_tag :=
  Nom.map_strict _ (Nom.terminated_strict_left (Nom.take_while1_strict _) (Nom.tag_noninc _))

theorem parse_header_strict : Nom.Strict parse_header :=
  Nom.pair_strict_left parse_header_tag_strict parse_markdown_text_strict.noninc

theorem parse_unordered_list_strict : Nom.Strict parse_unordered_list :=
  Nom.many1_strict _

theorem parse_ordered_list_strict : Nom.Strict parse_ordered_list :=
  Nom.many1_strict _

theorem parse_code_block_strict : Nom.Strict parse_code_block :=
  Nom.map_strict _
    (Nom.pair_strict_left (Nom.tag_strict (by decide))
      (Nom.pair_noninc Nom.alphanumeric0_noninc
        (Nom.pair_noninc Nom.line_ending_strict.noninc
          (Nom.pair_noninc (Nom.take_until_noninc _) (Nom.tag_noninc _)))))

theorem markdown_block_strict : Nom.Strict markdown_block := by
  apply Nom.alt_strict
  intro p hp
  simp only [markdown_block, List.mem_cons, List.not_mem_nil, or_false] at hp
  rcases hp with h | h | h | h | h | h
  all_goals subst h
  · exact Nom.map_strict _ parse_horizontal_rule_strict
  · exact Nom.map_strict _ parse_header_strict
  · exact Nom.map_strict _ parse_unordered_list_strict
  · exact Nom.map_strict _ parse_ordered_list_strict
  · exact Nom.map_strict _ parse_code_block_strict
  · exact Nom.map_strict _ parse_markdown_text_strict

-- # Claim C3: failure and partial results of the whole-document parse

/-- Claim C3 counterexample: on `"a\n*x\n"` no block rule matches at the
second line, yet the parse does not abort: it returns the prefix of blocks
parsed so far together with the nonempty unconsumed remainder — exactly the
partial result the claim says is never returned. -/
theorem C3_counterexample :
    parse_markdown (s2l "a\n*x\n") =
      some (s2l "*x\n", [Markdown.Line [MarkdownInline.Plaintext (s2l "a")]]) ∧
    markdown_block (s2l "*x\n") = none ∧
    s2l "*x\n" ≠ [] := by
  refine ⟨by decide, by decide, by decide⟩

/-- Claim C3 (amended): the whole-document parse fails exactly when no block
rule matches at the very start of the input; a failure at any later position
does not abort the parse but merely ends the block list, returning the blocks
parsed so far with the unconsumed remainder (which `main` then ignores). -/
theorem C3_theorem :
    parse_markdown (s2l "a\n*x\n") =
      some (s2l "*x\n", [Markdown.Line [MarkdownInline.Plaintext (s2l "a")]]) ∧
    ∀ i, (parse_markdown i = none ↔ markdown_block i = none) := by
  constructor
  · decide
  · intro i
    constructor
    · intro h
      cases hb : markdown_block i with
      | none => rfl
      | some x =>
        obtain ⟨r, a⟩ := x
        have hlt := markdown_block_strict i r a hb
        exfalso
        have h2 : parse_markdown i ≠ none := by
          unfold parse_markdown Nom.many1
          rw [hb]
          simp only [hlt, if_true]
          cases hm : Nom.many0 markdown_block r with
          | none => exact absurd hm (Nom.many0_ne_none markdown_block_strict r)
          | some y => simp
        exact h2 h
    · intro h
      unfold parse_markdown Nom.many1
      rw [h]

-- # Plain-text consumption over runs of ordinary characters (for C2, C10)

/-- A character that starts none of the special tags checked by
`safe_one_char` (the two-character tag `"!["` additionally needs the next
character, handled separately). -/
def safe_char (c : Char) : Bool :=
  !(['*', '`', '~', '[', '\\', '\n', '\r'].contains c)

namespace Nom

/-- A two-character `tag` fails when the second character differs. -/
theorem tag2_none_of_second_ne {a b c d : Char} {r : List Char} (h : d ≠ b) :
    tag [a, b] (c :: d :: r) = none := by
  unfold tag
  have hp : ([a, b].isPrefixOf (c :: d :: r)) = false := by
    simp [List.isPrefixOf]
    intro _ e
    exact absurd e.symm h
  simp [hp]

end Nom

/-- A safe character (with a non-`'['` successor) is consumed by
`safe_one_char`. -/
theorem safe_one_char_some {c : Char} {rest : List Char}
    (hc : safe_char c = true) (hr : ∀ d, rest.head? = some d → d ≠ '[') :
    safe_one_char (c :: rest) = some (rest, [c]) := by
  simp [safe_char] at hc
  obtain ⟨h1, h2, h3, h4, h5, h6, h7⟩ := hc
  have t1 : Nom.tag (s2l "*") (c :: rest) = none := Nom.tag_none_of_head_ne h1
  have t2 : Nom.tag (s2l "`") (c :: rest) = none := Nom.tag_none_of_head_ne h2
  have t3 : Nom.tag (s2l "~") (c :: rest) = none := Nom.tag_none_of_head_ne h3
  have t4 : Nom.tag (s2l "[") (c :: rest) = none := Nom.tag_none_of_head_ne h4
  have t6 : Nom.tag (s2l "\\") (c :: rest) = none := Nom.tag_none_of_head_ne h5
  have t7 : Nom.tag (s2l "\n") (c :: rest) = none := Nom.tag_none_of_head_ne h6
  have t8 : Nom.tag (s2l "\r") (c :: rest) = none := Nom.tag_none_of_head_ne h7
  have t5 : Nom.tag (s2l "![") (c :: rest) = none := by
    by_cases hc2 : c = '!'
    · subst hc2
      cases rest with
      | nil => decide
      | cons d rest2 =>
        have hd : d ≠ '[' := hr d rfl
        exact Nom.tag2_none_of_second_ne hd
    · exact Nom.tag_none_of_head_ne hc2
  have halt : Nom.alt [Nom.tag (s2l "*"), Nom.tag (s2l "`"), Nom.tag (s2l "~"),
      Nom.tag (s2l "["), Nom.tag (s2l "!["), Nom.tag (s2l "\\"),
      Nom.tag (s2l "\n"), Nom.tag (s2l "\r")] (c :: rest) = none := by
    simp only [Nom.alt, t1, t2, t3, t4, t5, t6, t7, t8]
  simp only [safe_one_char, Nom.preceded, Nom.not, halt, Nom.take1]

/-- `safe_one_char` rejects a position starting with `'*'` (the `tag("*")`
lookahead hits). -/
theorem safe_one_char_none_star (rest : List Char) :
    safe_one_char ('*' :: rest) = none := by
  have ht : Nom.tag (s2l "*") ('*' :: rest) = some (rest, s2l "*") :=
    Nom.tag_self_append (s2l "*") rest
  simp only [safe_one_char, Nom.preceded, Nom.not, Nom.alt, ht]

/-- `safe_one_char` rejects a position starting with a backslash (the
`tag("\\")` lookahead hits). -/
theorem safe_one_char_none_backslash (rest : List Char) :
    safe_one_char ('\\' :: rest) = none := by
  have t1 : Nom.tag (s2l "*") ('\\' :: rest) = none :=
    Nom.tag_none_of_head_ne (by decide)
  have t2 : Nom.tag (s2l "`") ('\\' :: rest) = none :=
    Nom.tag_none_of_head_ne (by decide)
  have t3 : Nom.tag (s2l "~") ('\\' :: rest) = none :=
    Nom.tag_none_of_head_ne (by decide)
  have t4 : Nom.tag (s2l "[") ('\\' :: rest) = none :=
    Nom.tag_none_of_head_ne (by decide)
  have t5 : Nom.tag (s2l "![") ('\\' :: rest) = none :=
    Nom.tag_none_of_head_ne (by decide)
  have t6 : Nom.tag (s2l "\\") ('\\' :: rest) = some (rest, s2l "\\") :=
    Nom.tag_self_append (s2l "\\") rest
  simp only [safe_one_char, Nom.preceded, Nom.not, Nom.alt, t1, t2, t3, t4, t5, t6]

/-- `escaped_char` needs a leading backslash. -/
theorem escaped_char_none_of_head_ne {c : Char} (rest : List Char) (hc : c ≠ '\\') :
    escaped_char (c :: rest) = none := by
  have t1 : Nom.tag (s2l "\\*") (c :: rest) = none := Nom.tag_none_of_head_ne hc
  have t2 : Nom.tag (s2l "\\`") (c :: rest) = none := Nom.tag_none_of_head_ne hc
  have t3 : Nom.tag (s2l "\\[") (c :: rest) = none := Nom.tag_none_of_head_ne hc
  have t4 : Nom.tag (s2l "\\]") (c :: rest) = none := Nom.tag_none_of_head_ne hc
  have t5 : Nom.tag (s2l "\\~") (c :: rest) = none := Nom.tag_none_of_head_ne hc
  have t6 : Nom.tag (s2l "\\!") (c :: rest) = none := Nom.tag_none_of_head_ne hc
  simp only [escaped_char, Nom.map, Nom.alt, t1, t2, t3, t4, t5, t6]

/-- `escaped_char` fails when the character after the backslash is not one of
the six escapable characters. -/
theorem escaped_char_none_of_second {c : Char} (rest : List Char)
    (hc : c ∉ (['*', '`', '[', ']', '~', '!'] : List Char)) :
    escaped_char ('\\' :: c :: rest) = none := by
  simp only [List.mem_cons, List.not_mem_nil, or_false, not_or] at hc
  obtain ⟨h1, h2, h3, h4, h5, h6⟩ := hc
  have t1 : Nom.tag (s2l "\\*") ('\\' :: c :: rest) = none :=
    Nom.tag2_none_of_second_ne h1
  have t2 : Nom.tag (s2l "\\`") ('\\' :: c :: rest) = none :=
    Nom.tag2_none_of_second_ne h2
  have t3 : Nom.tag (s2l "\\[") ('\\' :: c :: rest) = none :=
    Nom.tag2_none_of_second_ne h3
  have t4 : Nom.tag (s2l "\\]") ('\\' :: c :: rest) = none :=
    Nom.tag2_none_of_second_ne h4
  have t5 : Nom.tag (s2l "\\~") ('\\' :: c :: rest) = none :=
    Nom.tag2_none_of_second_ne h5
  have t6 : Nom.tag (s2l "\\!") ('\\' :: c :: rest) = none :=
    Nom.tag2_none_of_second_ne h6
  simp only [escaped_char, Nom.map, Nom.alt, t1, t2, t3, t4, t5, t6]

/-- Joining singleton pieces gives back the original list. -/
theorem flatten_map_singleton (l : List Char) :
    (l.map (fun c => [c])).flatten = l := by
  induction l with
  | nil => rfl
  | cons a t ih => simp [ih]

/-- After a run of safe characters, the next character (or the stop character
`x`) is never `'['`. -/
theorem head_ne_bracket {pre : List Char} {x : Char} {rest : List Char}
    (hpre : ∀ c ∈ pre, safe_char c = true) (hx : x ≠ '[') :
    ∀ d, (pre ++ x :: rest).head? = some d → d ≠ '[' := by
  intro d hd
  cases pre with
  | nil =>
    simp only [List.nil_append, List.head?_cons, Option.some.injEq] at hd
    rw [← hd]
    exact hx
  | cons e pre2 =>
    simp only [List.cons_append, List.head?_cons, Option.some.injEq] at hd
    rw [← hd]
    have he := hpre e (by simp)
    simp [safe_char] at he
    exact he.2.2.2.1

/-- The `many1` piece loop of `parse_plaintext` consumes exactly a run of
safe characters, stopping where both `safe_one_char` and `escaped_char`
fail. -/
theorem many0_piece_safe (pre : List Char) (x : Char) (rest : List Char)
    (hpre : ∀ c ∈ pre, safe_char c = true) (hx : x ≠ '[')
    (hsafe : safe_one_char (x :: rest) = none)
    (hesc : escaped_char (x :: rest) = none) :
    Nom.many0 (Nom.alt [safe_one_char, escaped_char]) (pre ++ x :: rest) =
      some (x :: rest, pre.map (fun c => [c])) := by
  induction pre with
  | nil =>
    rw [Nom.many0_unfold]
    have halt : Nom.alt [safe_one_char, escaped_char] (x :: rest) = none := by
      simp only [Nom.alt, hsafe, hesc]
    simp [halt]
  | cons c pre' ih =>
    rw [Nom.many0_unfold]
    have hc := hpre c (by simp)
    have hstep : safe_one_char (c :: (pre' ++ x :: rest)) =
        some (pre' ++ x :: rest, [c]) :=
      safe_one_char_some hc (head_ne_bracket (fun a ha => hpre a (by simp [ha])) hx)
    have halt : Nom.alt [safe_one_char, escaped_char] (c :: (pre' ++ x :: rest)) =
        some (pre' ++ x :: rest, [c]) := Nom.alt_cons_some hstep
    have hlt : (pre' ++ x :: rest).length < ((c :: pre') ++ x :: rest).length := by
      simp
    simp only [List.cons_append, halt]
    simp only [List.cons_append] at hlt
    simp only [hlt, if_true]
    rw [ih (fun a ha => hpre a (by simp [ha]))]
    simp

/-- `parse_plaintext` consumes a nonempty run of safe characters up to a
position where neither a safe character nor an escape can be read. -/
theorem parse_plaintext_safe (pre : List Char) (x : Char) (rest : List Char)
    (hne : pre ≠ []) (hpre : ∀ c ∈ pre, safe_char c = true) (hx : x ≠ '[')
    (hsafe : safe_one_char (x :: rest) = none)
    (hesc : escaped_char (x :: rest) = none) :
    parse_plaintext (pre ++ x :: rest) = some (x :: rest, pre) := by
  cases pre with
  | nil => exact absurd rfl hne
  | cons c pre' =>
    have hc := hpre c (by simp)
    have hstep : safe_one_char (c :: (pre' ++ x :: rest)) =
        some (pre' ++ x :: rest, [c]) :=
      safe_one_char_some hc (head_ne_bracket (fun a ha => hpre a (by simp [ha])) hx)
    have halt : Nom.alt [safe_one_char, escaped_char] (c :: (pre' ++ x :: rest)) =
        some (pre' ++ x :: rest, [c]) := Nom.alt_cons_some hstep
    have hlt : (pre' ++ x :: rest).length < (c :: (pre' ++ x :: rest)).length := by
      simp
    have hm0 := many0_piece_safe pre' x rest (fun a ha => hpre a (by simp [ha])) hx
      hsafe hesc
    simp only [parse_plaintext, Nom.map, Nom.many1, List.cons_append, halt,
      hlt, if_true, hm0]
    simp [flatten_map_singleton]

/-- At the start of a nonempty run of safe characters every span rule fails
and the inline tokenizer produces exactly the `Plaintext` run. -/
theorem parse_markdown_inline_safe (c : Char) (pre : List Char) (x : Char)
    (rest : List Char) (hpre : ∀ a ∈ c :: pre, safe_char a = true) (hx : x ≠ '[')
    (hsafe : safe_one_char (x :: rest) = none)
    (hesc : escaped_char (x :: rest) = none) :
    parse_markdown_inline (c :: (pre ++ x :: rest)) =
      some (x :: rest, MarkdownInline.Plaintext (c :: pre)) := by
  have hc := hpre c (by simp)
  simp [safe_char] at hc
  obtain ⟨h1, h2, h3, h4, h5, h6, h7⟩ := hc
  have t1 : Nom.tag (s2l "*") (c :: (pre ++ x :: rest)) = none :=
    Nom.tag_none_of_head_ne h1
  have t2 : Nom.tag (s2l "`") (c :: (pre ++ x :: rest)) = none :=
    Nom.tag_none_of_head_ne h2
  have t3 : Nom.tag (s2l "~") (c :: (pre ++ x :: rest)) = none :=
    Nom.tag_none_of_head_ne h3
  have t4 : Nom.tag (s2l "**") (c :: (pre ++ x :: rest)) = none :=
    Nom.tag_none_of_head_ne h1
  have t6 : Nom.tag (s2l "[") (c :: (pre ++ x :: rest)) = none :=
    Nom.tag_none_of_head_ne h4
  have t5 : Nom.tag (s2l "![") (c :: (pre ++ x :: rest)) = none := by
    by_cases hc2 : c = '!'
    · subst hc2
      cases pre with
      | nil => exact Nom.tag2_none_of_second_ne hx
      | cons e pre2 =>
        have he := hpre e (by simp)
        simp [safe_char] at he
        exact Nom.tag2_none_of_second_ne he.2.2.2.1
    · exact Nom.tag_none_of_head_ne hc2
  have m1 : Nom.map parse_italics MarkdownInline.Italic (c :: (pre ++ x :: rest)) =
      none := by
    simp only [Nom.map, parse_italics, Nom.delimited, t1]
  have m2 : Nom.map parse_strike MarkdownInline.Strike (c :: (pre ++ x :: rest)) =
      none := by
    simp only [Nom.map, parse_strike, Nom.delimited, t3]
  have m3 : Nom.map parse_inline_code MarkdownInline.InlineCode
      (c :: (pre ++ x :: rest)) = none := by
    simp only [Nom.map, parse_inline_code, Nom.delimited, t2]
  have m4 : Nom.map parse_boldtext MarkdownInline.Bold (c :: (pre ++ x :: rest)) =
      none := by
    simp only [Nom.map, parse_boldtext, Nom.delimited, t4]
  have m5 : Nom.map parse_image (fun e => MarkdownInline.Image e.1 e.2)
      (c :: (pre ++ x :: rest)) = none := by
    simp only [Nom.map, parse_image, Nom.pair, Nom.delimited, t5]
  have m6 : Nom.map parse_link (fun e => MarkdownInline.Link e.1 e.2)
      (c :: (pre ++ x :: rest)) = none := by
    simp only [Nom.map, parse_link, Nom.pair, Nom.delimited, t6]
  have hplain : parse_plaintext ((c :: pre) ++ x :: rest) =
      some (x :: rest, c :: pre) :=
    parse_plaintext_safe (c :: pre) x rest (by simp) hpre hx hsafe hesc
  simp only [List.cons_append] at hplain
  have m7 : Nom.map parse_plaintext MarkdownInline.Plaintext
      (c :: (pre ++ x :: rest)) =
      some (x :: rest, MarkdownInline.Plaintext (c :: pre)) := by
    simp only [Nom.map, hplain]
  simp only [parse_markdown_inline, Nom.alt, m1, m2, m3, m4, m5, m6, m7]

/-- A line made of a run of safe characters followed by a character where the
inline tokenizer is stuck (no rule matches, no escape, not a newline) fails
to tokenize as a whole. -/
theorem parse_markdown_text_stuck (pre : List Char) (x : Char) (rest : List Char)
    (hpre : ∀ c ∈ pre, safe_char c = true) (hx : x ≠ '[') (hxn : x ≠ '\n')
    (hstuck : parse_markdown_inline (x :: rest) = none)
    (hsafe : safe_one_char (x :: rest) = none)
    (hesc : escaped_char (x :: rest) = none) :
    parse_markdown_text (pre ++ x :: rest) = none := by
  have htagn : Nom.tag (s2l "\n") (x :: rest) = none := Nom.tag_none_of_head_ne hxn
  cases pre with
  | nil =>
    have hm0 : Nom.many0 parse_markdown_inline (x :: rest) = some (x :: rest, []) := by
      rw [Nom.many0_unfold]
      simp [hstuck]
    simp only [parse_markdown_text, Nom.terminated, List.nil_append, hm0, htagn]
  | cons c pre' =>
    have hinline := parse_markdown_inline_safe c pre' x rest hpre hx hsafe hesc
    have hm0tail : Nom.many0 parse_markdown_inline (x :: rest) =
        some (x :: rest, []) := by
      rw [Nom.many0_unfold]
      simp [hstuck]
    have hlt : (x :: rest).length < (c :: (pre' ++ x :: rest)).length := by
      simp [List.length_append]
      omega
    have hm0 : Nom.many0 parse_markdown_inline (c :: (pre' ++ x :: rest)) =
        some (x :: rest, [MarkdownInline.Plaintext (c :: pre')]) := by
      rw [Nom.many0_unfold]
      simp only [hinline, hlt, if_true, hm0tail]
    simp only [parse_markdown_text, Nom.terminated, List.cons_append, hm0, htagn]

-- # Claim C2: a single unmatched '*' in a line

/-- At an unmatched `'*'` (no further `'*'` up to and including the line
terminator) every inline rule fails: the italic rule cannot find a closing
delimiter and plain-text consumption refuses the `'*'`. -/
theorem inline_stuck_at_star (post : List Char)
    (hpost : ∀ c ∈ post, safe_char c = true) :
    parse_markdown_inline ('*' :: (post ++ ['\n'])) = none := by
  have hstar : Nom.tag (s2l "*") ('*' :: (post ++ ['\n'])) =
      some (post ++ ['\n'], s2l "*") := Nom.tag_self_append (s2l "*") _
  have hall : ∀ c ∈ post ++ ['\n'], (s2l "*").contains c = false := by
    intro c hcmem
    rcases List.mem_append.mp hcmem with hmem | hmem
    · have hc := hpost c hmem
      simp [safe_char] at hc
      show (['*'] : List Char).contains c = false
      simpa using hc.1
    · simp only [List.mem_singleton] at hmem
      subst hmem
      decide
  have hisnot : Nom.is_not (s2l "*") (post ++ ['\n']) =
      some ([], post ++ ['\n']) := Nom.is_not_all (by simp) hall
  have htagnil : Nom.tag (s2l "*") ([] : List Char) = none := Nom.tag_cons_nil '*' []
  have m1 : Nom.map parse_italics MarkdownInline.Italic ('*' :: (post ++ ['\n'])) =
      none := by
    simp only [Nom.map, parse_italics, Nom.delimited, hstar, hisnot, htagnil]
  have m2 : Nom.map parse_strike MarkdownInline.Strike ('*' :: (post ++ ['\n'])) =
      none := by
    have t : Nom.tag (s2l "~") ('*' :: (post ++ ['\n'])) = none :=
      Nom.tag_none_of_head_ne (by decide)
    simp only [Nom.map, parse_strike, Nom.delimited, t]
  have m3 : Nom.map parse_inline_code MarkdownInline.InlineCode
      ('*' :: (post ++ ['\n'])) = none := by
    have t : Nom.tag (s2l "`") ('*' :: (post ++ ['\n'])) = none :=
      Nom.tag_none_of_head_ne (by decide)
    simp only [Nom.map, parse_inline_code, Nom.delimited, t]
  have m4 : Nom.map parse_boldtext MarkdownInline.Bold ('*' :: (post ++ ['\n'])) =
      none := by
    have t : Nom.tag (s2l "**") ('*' :: (post ++ ['\n'])) = none := by
      cases post with
      | nil => decide
      | cons d post2 =>
        have hd := hpost d (by simp)
        simp [safe_char] at hd
        simp only [List.cons_append]
        exact Nom.tag2_none_of_second_ne hd.1
    simp only [Nom.map, parse_boldtext, Nom.delimited, t]
  have m5 : Nom.map parse_image (fun e => MarkdownInline.Image e.1 e.2)
      ('*' :: (post ++ ['\n'])) = none := by
    have t : Nom.tag (s2l "![") ('*' :: (post ++ ['\n'])) = none :=
      Nom.tag_none_of_head_ne (by decide)
    simp only [Nom.map, parse_image, Nom.pair, Nom.delimited, t]
  have m6 : Nom.map parse_link (fun e => MarkdownInline.Link e.1 e.2)
      ('*' :: (post ++ ['\n'])) = none := by
    have t : Nom.tag (s2l "[") ('*' :: (post ++ ['\n'])) = none :=
      Nom.tag_none_of_head_ne (by decide)
    simp only [Nom.map, parse_link, Nom.pair, Nom.delimited, t]
  have m7 : Nom.map parse_plaintext MarkdownInline.Plaintext
      ('*' :: (post ++ ['\n'])) = none := by
    have halt : Nom.alt [safe_one_char, escaped_char] ('*' :: (post ++ ['\n'])) =
        none := by
      simp only [Nom.alt, safe_one_char_none_star,
        escaped_char_none_of_head_ne _ (by decide : ('*' : Char) ≠ '\\')]
    simp only [Nom.map, parse_plaintext, Nom.many1, halt]
  simp only [parse_markdown_inline, Nom.alt, m1, m2, m3, m4, m5, m6, m7]

/-- Claim C2 counterexample: the line `"a*b\n"` contains a single unmatched
`'*'`; the inline phase does not fall back to plain text containing the
`'*'` — the whole line (and the whole document) fails to parse. -/
theorem C2_counterexample :
    parse_markdown_inline (s2l "*b\n") = none ∧
    parse_markdown_text (s2l "a*b\n") = none ∧
    parse_markdown (s2l "a*b\n") = none := by
  refine ⟨by decide, by decide, by decide⟩

/-- Claim C2 (amended): for every line made of ordinary characters with a
single unmatched `'*'` (no other delimiter characters anywhere in the line),
the tokenizer cannot consume the `'*'`: plain-text consumption stops in
front of it, the italic rule finds no closing delimiter, and tokenization of
the line fails instead of producing plain text containing the `'*'`. -/
theorem C2_theorem (pre post : List Char)
    (hpre : ∀ c ∈ pre, safe_char c = true)
    (hpost : ∀ c ∈ post, safe_char c = true) :
    parse_markdown_text (pre ++ '*' :: (post ++ ['\n'])) = none :=
  parse_markdown_text_stuck pre '*' (post ++ ['\n']) hpre (by decide) (by decide)
    (inline_stuck_at_star post hpost) (safe_one_char_none_star _)
    (escaped_char_none_of_head_ne _ (by decide))

/-- Claim C2 witness: `C2_theorem` at the concrete line `"a*b\n"`. -/
theorem C2_witness :
    (∀ c ∈ s2l "a", safe_char c = true) ∧ (∀ c ∈ s2l "b", safe_char c = true) ∧
    parse_markdown_text (s2l "a" ++ '*' :: (s2l "b" ++ ['\n'])) = none :=
  ⟨by decide, by decide, C2_theorem (s2l "a") (s2l "b") (by decide) (by decide)⟩

-- # Claim C10: a backslash before a non-escapable character

/-- At a backslash followed by a non-escapable character every inline rule
fails: no span rule starts with a backslash, plain-text consumption excludes
the backslash and the escape rule requires one of the six escapable
characters. -/
theorem inline_stuck_at_backslash (c : Char) (rest : List Char)
    (hc : c ∉ (['*', '`', '[', ']', '~', '!'] : List Char)) :
    parse_markdown_inline ('\\' :: c :: rest) = none := by
  have m1 : Nom.map parse_italics MarkdownInline.Italic ('\\' :: c :: rest) =
      none := by
    have t : Nom.tag (s2l "*") ('\\' :: c :: rest) = none :=
      Nom.tag_none_of_head_ne (by decide)
    simp only [Nom.map, parse_italics, Nom.delimited, t]
  have m2 : Nom.map parse_strike MarkdownInline.Strike ('\\' :: c :: rest) =
      none := by
    have t : Nom.tag (s2l "~") ('\\' :: c :: rest) = none :=
      Nom.tag_none_of_head_ne (by decide)
    simp only [Nom.map, parse_strike, Nom.delimited, t]
  have m3 : Nom.map parse_inline_code MarkdownInline.InlineCode
      ('\\' :: c :: rest) = none := by
    have t : Nom.tag (s2l "`") ('\\' :: c :: rest) = none :=
      Nom.tag_none_of_head_ne (by decide)
    simp only [Nom.map, parse_inline_code, Nom.delimited, t]
  have m4 : Nom.map parse_boldtext MarkdownInline.Bold ('\\' :: c :: rest) =
      none := by
    have t : Nom.tag (s2l "**") ('\\' :: c :: rest) = none :=
      Nom.tag_none_of_head_ne (by decide)
    simp only [Nom.map, parse_boldtext, Nom.delimited, t]
  have m5 : Nom.map parse_image (fun e => MarkdownInline.Image e.1 e.2)
      ('\\' :: c :: rest) = none := by
    have t : Nom.tag (s2l "![") ('\\' :: c :: rest) = none :=
      Nom.tag_none_of_head_ne (by decide)
    simp only [Nom.map, parse_image, Nom.pair, Nom.delimited, t]
  have m6 : Nom.map parse_link (fun e => MarkdownInline.Link e.1 e.2)
      ('\\' :: c :: rest) = none := by
    have t : Nom.tag (s2l "[") ('\\' :: c :: rest) = none :=
      Nom.tag_none_of_head_ne (by decide)
    simp only [Nom.map, parse_link, Nom.pair, Nom.delimited, t]
  have m7 : Nom.map parse_plaintext MarkdownInline.Plaintext ('\\' :: c :: rest) =
      none := by
    have halt : Nom.alt [safe_one_char, escaped_char] ('\\' :: c :: rest) =
        none := by
      simp only [Nom.alt, safe_one_char_none_backslash,
        escaped_char_none_of_second rest hc]
    simp only [Nom.map, parse_plaintext, Nom.many1, halt]
  simp only [parse_markdown_inline, Nom.alt, m1, m2, m3, m4, m5, m6, m7]

/-- Claim C10 counterexample: the line `"*a\xb*\n"` contains a backslash
immediately followed by `'x'` (not one of the six escapable characters), yet
the line parses successfully: the backslash is consumed inside the italic
span by `is_not`, so the claim that every such line fails is false. -/
theorem C10_counterexample :
    ('x' ∉ (['*', '`', '[', ']', '~', '!'] : List Char)) ∧
    parse_markdown_text (s2l "*a\\xb*\n") =
      some ([], [MarkdownInline.Italic (s2l "a\\xb")]) ∧
    parse_markdown (s2l "*a\\xb*\n") =
      some ([], [Markdown.Line [MarkdownInline.Italic (s2l "a\\xb")]]) := by
  refine ⟨by decide, by decide, by decide⟩

/-- Claim C10 (amended): outside a delimited span the tokenizer can never
consume a backslash followed by a non-escapable character: for every line of
ordinary characters with such a backslash, tokenization of the line fails
(and when that line opens the document, the whole parse fails, as in the
concrete instance `"a\xb\n"`); but a backslash inside a span's content is
consumed freely by `is_not`, so such a line can still parse. -/
theorem C10_theorem (pre : List Char) (c : Char) (post : List Char)
    (hpre : ∀ a ∈ pre, safe_char a = true)
    (hc : c ∉ (['*', '`', '[', ']', '~', '!'] : List Char)) :
    parse_markdown_text (pre ++ '\\' :: c :: (post ++ ['\n'])) = none ∧
    parse_markdown (s2l "a\\xb\n") = none := by
  constructor
  · exact parse_markdown_text_stuck pre '\\' (c :: (post ++ ['\n'])) hpre
      (by decide) (by decide) (inline_stuck_at_backslash c _ hc)
      (safe_one_char_none_backslash _)
      (escaped_char_none_of_second _ hc)
  · decide

/-- Claim C10 witness: `C10_theorem` at the concrete line `"a\xb\n"`. -/
theorem C10_witness :
    (∀ a ∈ s2l "a", safe_char a = true) ∧
    ('x' ∉ (['*', '`', '[', ']', '~', '!'] : List Char)) ∧
    parse_markdown_text (s2l "a" ++ '\\' :: 'x' :: (s2l "b" ++ ['\n'])) = none :=
  ⟨by decide, by decide,
    (C10_theorem (s2l "a") 'x' (s2l "b") (by decide) (by decide)).1⟩

-- # Claim C6: bold is not misparsed as two empty italic spans

/-- Claim C6: for every nonempty `t` without `'*'`, the input `"**" t "**"`
is rejected by the italic rule (tried first: after consuming one `'*'` its
`is_not("*")` content parser sees the second `'*'` and fails) and the inline
tokenizer returns the single element `Bold t`. -/
theorem C6_theorem (t : List Char) (hne : t ≠ []) (ht : ∀ c ∈ t, c ≠ '*') :
    parse_italics ('*' :: '*' :: (t ++ ['*', '*'])) = none ∧
    parse_markdown_inline ('*' :: '*' :: (t ++ ['*', '*'])) =
      some ([], MarkdownInline.Bold t) := by
  have hi1 : Nom.tag (s2l "*") ('*' :: '*' :: (t ++ ['*', '*'])) =
      some ('*' :: (t ++ ['*', '*']), s2l "*") :=
    Nom.tag_self_append (s2l "*") ('*' :: (t ++ ['*', '*']))
  have hi2 : Nom.is_not (s2l "*") ('*' :: (t ++ ['*', '*'])) = none :=
    Nom.is_not_none_of_head (by decide)
  have m1 : Nom.map parse_italics MarkdownInline.Italic
      ('*' :: '*' :: (t ++ ['*', '*'])) = none := by
    simp only [Nom.map, parse_italics, Nom.delimited, hi1, hi2]
  have m2 : Nom.map parse_strike MarkdownInline.Strike
      ('*' :: '*' :: (t ++ ['*', '*'])) = none := by
    have h : Nom.tag (s2l "~") ('*' :: '*' :: (t ++ ['*', '*'])) = none :=
      Nom.tag_none_of_head_ne (by decide)
    simp only [Nom.map, parse_strike, Nom.delimited, h]
  have m3 : Nom.map parse_inline_code MarkdownInline.InlineCode
      ('*' :: '*' :: (t ++ ['*', '*'])) = none := by
    have h : Nom.tag (s2l "`") ('*' :: '*' :: (t ++ ['*', '*'])) = none :=
      Nom.tag_none_of_head_ne (by decide)
    simp only [Nom.map, parse_inline_code, Nom.delimited, h]
  have hb1 : Nom.tag (s2l "**") ('*' :: '*' :: (t ++ ['*', '*'])) =
      some (t ++ ['*', '*'], s2l "**") :=
    Nom.tag_self_append (s2l "**") (t ++ ['*', '*'])
  have hball : ∀ c ∈ t, (s2l "**").contains c = false := by
    intro c hc
    show (['*', '*'] : List Char).contains c = false
    simp [ht c hc]
  have hb2 : Nom.is_not (s2l "**") (t ++ ['*', '*']) = some (['*', '*'], t) :=
    Nom.is_not_block ['*'] hne hball (by decide)
  have hb3 : Nom.tag (s2l "**") (['*', '*'] : List Char) =
      some ([], s2l "**") := Nom.tag_self_append (s2l "**") []
  have m4 : Nom.map parse_boldtext MarkdownInline.Bold
      ('*' :: '*' :: (t ++ ['*', '*'])) = some ([], MarkdownInline.Bold t) := by
    simp only [Nom.map, parse_boldtext, Nom.delimited, hb1, hb2, hb3]
  refine ⟨?_, ?_⟩
  · simp only [parse_italics, Nom.delimited, hi1, hi2]
  · simp only [parse_markdown_inline, Nom.alt, m1, m2, m3, m4]

/-- Claim C6 witness: `C6_theorem` at `t = "a"`, i.e. the input `"**a**"`. -/
theorem C6_witness :
    (s2l "a" ≠ []) ∧ (∀ c ∈ s2l "a", c ≠ '*') ∧
    (parse_italics ('*' :: '*' :: (s2l "a" ++ ['*', '*'])) = none ∧
     parse_markdown_inline ('*' :: '*' :: (s2l "a" ++ ['*', '*'])) =
       some ([], MarkdownInline.Bold (s2l "a"))) :=
  ⟨by decide, by decide, C6_theorem (s2l "a") (by decide) (by decide)⟩

-- # Claim C9: inline spans reconstruct the line (lossless boundaries)

/-- The six characters the escape rule of `parse_plaintext` recognizes. -/
def escapable : List Char := ['*', '`', '[', ']', '~', '!']

/-- Decode the backslash escapes of a consumed plain-text span: a backslash
immediately followed by an escapable character contributes just that
character (mirroring `escaped_char`'s `&e[1..2]`); everything else is kept. -/
def decode : List Char → List Char
  | [] => []
  | a :: rest =>
    if a = '\\' then
      match rest with
      | [] => ['\\']
      | b :: r2 => if b ∈ escapable then b :: decode r2 else '\\' :: decode (b :: r2)
    else a :: decode rest

theorem decode_nil : decode [] = [] := rfl

theorem decode_cons_safe {a : Char} (h : a ≠ '\\') (l : List Char) :
    decode (a :: l) = a :: decode l := by
  rw [decode.eq_def]
  simp [h]

theorem decode_cons_esc {b : Char} (h : b ∈ escapable) (l : List Char) :
    decode ('\\' :: b :: l) = b :: decode l := by
  rw [decode.eq_def]
  simp [h]

/-- The source span an inline element was parsed from: the span rules re-add
their delimiters, and a plain-text span decodes to the stored text. -/
def IsSpanOf : MarkdownInline → List Char → Prop
  | .Link l u, c => c = '[' :: (l ++ ']' :: '(' :: (u ++ [')']))
  | .Image a u, c => c = '!' :: '[' :: (a ++ ']' :: '(' :: (u ++ [')']))
  | .InlineCode s, c => c = '`' :: (s ++ ['`'])
  | .Bold s, c => c = '*' :: '*' :: (s ++ ['*', '*'])
  | .Italic s, c => c = '*' :: (s ++ ['*'])
  | .Plaintext s, c => decode c = s
  | .Strike s, c => c = '~' :: (s ++ ['~'])

namespace Nom

/-- Destructor for a successful `alt` with a head alternative. -/
theorem alt_cons_dest {α : Type} {p : Parser α} {ps : List (Parser α)}
    {i : List Char} {x : List Char × α} (h : alt (p :: ps) i = some x) :
    p i = some x ∨ alt ps i = some x := by
  cases hq : p i with
  | none =>
    right
    rw [← alt_cons_none hq]
    exact h
  | some y =>
    left
    have h2 : alt (p :: ps) i = some y := alt_cons_some hq
    rw [h2] at h
    exact h

/-- A failing `alt` means its head and tail both fail. -/
theorem alt_cons_none_iff {α : Type} {p : Parser α} {ps : List (Parser α)}
    {i : List Char} :
    alt (p :: ps) i = none ↔ p i = none ∧ alt ps i = none := by
  cases hq : p i with
  | none => simp [alt, hq]
  | some y => simp [alt, hq]

/-- Success characterization of `take1`. -/
theorem take1_eq_some {i r v : List Char} :
    take1 i = some (r, v) ↔ ∃ c, i = c :: r ∧ v = [c] := by
  cases i with
  | nil => simp [take1]
  | cons c t =>
    simp only [take1, Option.some.injEq, Prod.mk.injEq]
    constructor
    · rintro ⟨h1, h2⟩
      exact ⟨c, by rw [h1], h2.symm⟩
    · rintro ⟨d, hd, hv⟩
      simp only [List.cons.injEq] at hd
      exact ⟨hd.2, by rw [hv, hd.1]⟩

end Nom

theorem parse_italics_span {i r s : List Char} (h : parse_italics i = some (r, s)) :
    i = ('*' :: (s ++ ['*'])) ++ r := by
  obtain ⟨r1, r2, w1, w3, h1, h2, h3⟩ := Nom.delimited_eq_some.mp h
  obtain ⟨_, hi1⟩ := Nom.tag_eq_some.mp h1
  obtain ⟨hsp, _, _⟩ := Nom.is_not_split h2
  obtain ⟨_, hi3⟩ := Nom.tag_eq_some.mp h3
  rw [hi1, hsp, hi3]
  simp [s2l]

theorem parse_strike_span {i r s : List Char} (h : parse_strike i = some (r, s)) :
    i = ('~' :: (s ++ ['~'])) ++ r := by
  obtain ⟨r1, r2, w1, w3, h1, h2, h3⟩ := Nom.delimited_eq_some.mp h
  obtain ⟨_, hi1⟩ := Nom.tag_eq_some.mp h1
  obtain ⟨hsp, _, _⟩ := Nom.is_not_split h2
  obtain ⟨_, hi3⟩ := Nom.tag_eq_some.mp h3
  rw [hi1, hsp, hi3]
  simp [s2l]

theorem parse_inline_code_span {i r s : List Char}
    (h : parse_inline_code i = some (r, s)) :
    i = ('`' :: (s ++ ['`'])) ++ r := by
  obtain ⟨r1, r2, w1, w3, h1, h2, h3⟩ := Nom.delimited_eq_some.mp h
  obtain ⟨_, hi1⟩ := Nom.tag_eq_some.mp h1
  obtain ⟨hsp, _, _⟩ := Nom.is_not_split h2
  obtain ⟨_, hi3⟩ := Nom.tag_eq_some.mp h3
  rw [hi1, hsp, hi3]
  simp [s2l]

theorem parse_boldtext_span {i r s : List Char} (h : parse_boldtext i = some (r, s)) :
    i = ('*' :: '*' :: (s ++ ['*', '*'])) ++ r := by
  obtain ⟨r1, r2, w1, w3, h1, h2, h3⟩ := Nom.delimited_eq_some.mp h
  obtain ⟨_, hi1⟩ := Nom.tag_eq_some.mp h1
  obtain ⟨hsp, _, _⟩ := Nom.is_not_split h2
  obtain ⟨_, hi3⟩ := Nom.tag_eq_some.mp h3
  rw [hi1, hsp, hi3]
  simp [s2l]

theorem parse_link_span {i r l u : List Char}
    (h : parse_link i = some (r, (l, u))) :
    i = ('[' :: (l ++ ']' :: '(' :: (u ++ [')']))) ++ r := by
  obtain ⟨r1, h1, h2⟩ := Nom.pair_eq_some.mp h
  obtain ⟨ra, rb, w1, w3, ha1, ha2, ha3⟩ := Nom.delimited_eq_some.mp h1
  obtain ⟨_, hia1⟩ := Nom.tag_eq_some.mp ha1
  obtain ⟨hsp1, _, _⟩ := Nom.is_not_split ha2
  obtain ⟨_, hia3⟩ := Nom.tag_eq_some.mp ha3
  obtain ⟨rc, rd, w4, w6, hb1, hb2, hb3⟩ := Nom.delimited_eq_some.mp h2
  obtain ⟨_, hib1⟩ := Nom.tag_eq_some.mp hb1
  obtain ⟨hsp2, _, _⟩ := Nom.is_not_split hb2
  obtain ⟨_, hib3⟩ := Nom.tag_eq_some.mp hb3
  rw [hia1, hsp1, hia3, hib1, hsp2, hib3]
  simp [s2l]

theorem parse_image_span {i r a u : List Char}
    (h : parse_image i = some (r, (a, u))) :
    i = ('!' :: '[' :: (a ++ ']' :: '(' :: (u ++ [')']))) ++ r := by
  obtain ⟨r1, h1, h2⟩ := Nom.pair_eq_some.mp h
  obtain ⟨ra, rb, w1, w3, ha1, ha2, ha3⟩ := Nom.delimited_eq_some.mp h1
  obtain ⟨_, hia1⟩ := Nom.tag_eq_some.mp ha1
  obtain ⟨hsp1, _, _⟩ := Nom.is_not_split ha2
  obtain ⟨_, hia3⟩ := Nom.tag_eq_some.mp ha3
  obtain ⟨rc, rd, w4, w6, hb1, hb2, hb3⟩ := Nom.delimited_eq_some.mp h2
  obtain ⟨_, hib1⟩ := Nom.tag_eq_some.mp hb1
  obtain ⟨hsp2, _, _⟩ := Nom.is_not_split hb2
  obtain ⟨_, hib3⟩ := Nom.tag_eq_some.mp hb3
  rw [hia1, hsp1, hia3, hib1, hsp2, hib3]
  simp [s2l]

/-- One piece of the plain-text loop: a safe character contributes itself, an
escape contributes its decoded character; either way the consumed span is
prefix-composable under `decode`. -/
theorem piece_span {i r v : List Char}
    (h : Nom.alt [safe_one_char, escaped_char] i = some (r, v)) :
    ∃ c, i = c ++ r ∧ ∀ w, decode (c ++ w) = v ++ decode w := by
  rcases Nom.alt_cons_dest h with hs | h2
  · obtain ⟨r1, w, hn, ht⟩ := Nom.preceded_eq_some.mp hs
    obtain ⟨hpn, hri⟩ := Nom.not_eq_some.mp hn
    subst hri
    obtain ⟨c, hic, hv⟩ := Nom.take1_eq_some.mp ht
    simp only [Nom.alt_cons_none_iff, Nom.alt_nil, and_true] at hpn
    have h6 := hpn.2.2.2.2.2.1
    have hc : c ≠ '\\' := by
      intro e
      subst e
      rw [hic] at h6
      have h7 : Nom.tag (s2l "\\") ('\\' :: r) = some (r, s2l "\\") :=
        Nom.tag_self_append (s2l "\\") r
      rw [h7] at h6
      exact absurd h6 (by simp)
    subst hv
    refine ⟨[c], by rw [hic]; rfl, ?_⟩
    intro w
    show decode (c :: w) = [c] ++ decode w
    rw [decode_cons_safe hc]
    rfl
  · rcases Nom.alt_cons_dest h2 with he | h3
    · obtain ⟨e, halt6, hv⟩ := Nom.map_eq_some.mp he
      have step : ∀ d : Char, d ∈ escapable → Nom.tag ('\\' :: [d]) i = some (r, e) →
          ∃ c, i = c ++ r ∧ ∀ w, decode (c ++ w) = e.drop 1 ++ decode w := by
        intro d hd htag
        obtain ⟨hv2, hi2⟩ := Nom.tag_eq_some.mp htag
        subst hv2
        refine ⟨['\\', d], hi2, ?_⟩
        intro w
        show decode ('\\' :: d :: w) = [d] ++ decode w
        rw [decode_cons_esc hd]
        rfl
      subst hv
      rcases Nom.alt_cons_dest halt6 with hk | h4
      · exact step '*' (by decide) hk
      rcases Nom.alt_cons_dest h4 with hk | h5
      · exact step '`' (by decide) hk
      rcases Nom.alt_cons_dest h5 with hk | h6
      · exact step '[' (by decide) hk
      rcases Nom.alt_cons_dest h6 with hk | h7
      · exact step ']' (by decide) hk
      rcases Nom.alt_cons_dest h7 with hk | h8
      · exact step '~' (by decide) hk
      rcases Nom.alt_cons_dest h8 with hk | h9
      · exact step '!' (by decide) hk
      · rw [Nom.alt_nil] at h9
        exact absurd h9 (by simp)
    · rw [Nom.alt_nil] at h3
      exact absurd h3 (by simp)

/-- Bounded induction for the plain-text piece loop: the consumed prefix is
the concatenation of the pieces' spans and decodes to their joined output. -/
theorem many0_pieces_span_aux :
    ∀ n (i : List Char), i.length ≤ n → ∀ r vs,
      Nom.many0 (Nom.alt [safe_one_char, escaped_char]) i = some (r, vs) →
      ∃ c, i = c ++ r ∧ ∀ w, decode (c ++ w) = vs.flatten ++ decode w := by
  intro n
  induction n with
  | zero =>
    intro i hlen r vs h
    have hi : i = [] := List.eq_nil_of_length_eq_zero (Nat.le_zero.mp hlen)
    subst hi
    rw [Nom.many0_unfold] at h
    cases hq : Nom.alt [safe_one_char, escaped_char] [] with
    | none =>
      rw [hq] at h
      simp only [Option.some.injEq, Prod.mk.injEq] at h
      obtain ⟨h1, h2⟩ := h
      refine ⟨[], by rw [← h1]; simp, ?_⟩
      intro w
      rw [← h2]
      simp
    | some x =>
      obtain ⟨r1, a⟩ := x
      rw [hq] at h
      simp at h
  | succ n ih =>
    intro i hlen r vs h
    rw [Nom.many0_unfold] at h
    cases hq : Nom.alt [safe_one_char, escaped_char] i with
    | none =>
      rw [hq] at h
      simp only [Option.some.injEq, Prod.mk.injEq] at h
      obtain ⟨h1, h2⟩ := h
      refine ⟨[], by rw [← h1]; rfl, ?_⟩
      intro w
      rw [← h2]
      simp
    | some x =>
      obtain ⟨r1, a⟩ := x
      rw [hq] at h
      simp only at h
      by_cases hlt : r1.length < i.length
      · simp only [hlt, if_true] at h
        cases hm : Nom.many0 (Nom.alt [safe_one_char, escaped_char]) r1 with
        | none => rw [hm] at h; exact absurd h (by simp)
        | some y =>
          obtain ⟨r2, as⟩ := y
          rw [hm] at h
          simp only [Option.some.injEq, Prod.mk.injEq] at h
          obtain ⟨h1, h2⟩ := h
          obtain ⟨c1, hc1, hd1⟩ := piece_span hq
          obtain ⟨c2, hc2, hd2⟩ := ih r1 (by omega) r2 as hm
          refine ⟨c1 ++ c2, ?_, ?_⟩
          · rw [hc1, hc2, h1]
            simp [List.append_assoc]
          · intro w
            rw [← h2, List.append_assoc, hd1 (c2 ++ w), hd2 w]
            simp [List.append_assoc]
      · simp [hlt] at h

/-- The span consumed by `parse_plaintext` decodes to the produced text. -/
theorem parse_plaintext_span {i r s : List Char}
    (h : parse_plaintext i = some (r, s)) :
    ∃ c, i = c ++ r ∧ decode c = s := by
  obtain ⟨vs, hm, hs⟩ := Nom.map_eq_some.mp h
  unfold Nom.many1 at hm
  cases hq : Nom.alt [safe_one_char, escaped_char] i with
  | none => rw [hq] at hm; exact absurd hm (by simp)
  | some x =>
    obtain ⟨r1, a⟩ := x
    rw [hq] at hm
    simp only at hm
    by_cases hlt : r1.length < i.length
    · simp only [hlt, if_true] at hm
      cases hm0 : Nom.many0 (Nom.alt [safe_one_char, escaped_char]) r1 with
      | none => rw [hm0] at hm; exact absurd hm (by simp)
      | some y =>
        obtain ⟨r2, as⟩ := y
        rw [hm0] at hm
        simp only [Option.some.injEq, Prod.mk.injEq] at hm
        obtain ⟨h1, h2⟩ := hm
        obtain ⟨c1, hc1, hd1⟩ := piece_span hq
        obtain ⟨c2, hc2, hd2⟩ := many0_pieces_span_aux r1.length r1 (le_refl _) r2 as hm0
        refine ⟨c1 ++ c2, ?_, ?_⟩
        · rw [hc1, hc2, h1]
          simp [List.append_assoc]
        · have e1 : decode (c1 ++ c2) = a ++ decode c2 := hd1 c2
          have e2 : decode c2 = as.flatten := by
            have e3 := hd2 []
            rw [List.append_nil, decode_nil, List.append_nil] at e3
            exact e3
          rw [e1, e2, hs, ← h2]
          simp
    · simp [hlt] at hm

/-- Every successful inline element determines its consumed source span. -/
theorem parse_markdown_inline_span {i r : List Char} {e : MarkdownInline}
    (h : parse_markdown_inline i = some (r, e)) :
    ∃ c, i = c ++ r ∧ IsSpanOf e c := by
  rw [parse_markdown_inline] at h
  rcases Nom.alt_cons_dest h with hk | h2
  · obtain ⟨s, hp, he⟩ := Nom.map_eq_some.mp hk
    subst he
    exact ⟨'*' :: (s ++ ['*']), parse_italics_span hp, rfl⟩
  rcases Nom.alt_cons_dest h2 with hk | h3
  · obtain ⟨s, hp, he⟩ := Nom.map_eq_some.mp hk
    subst he
    exact ⟨'~' :: (s ++ ['~']), parse_strike_span hp, rfl⟩
  rcases Nom.alt_cons_dest h3 with hk | h4
  · obtain ⟨s, hp, he⟩ := Nom.map_eq_some.mp hk
    subst he
    exact ⟨'`' :: (s ++ ['`']), parse_inline_code_span hp, rfl⟩
  rcases Nom.alt_cons_dest h4 with hk | h5
  · obtain ⟨s, hp, he⟩ := Nom.map_eq_some.mp hk
    subst he
    exact ⟨'*' :: '*' :: (s ++ ['*', '*']), parse_boldtext_span hp, rfl⟩
  rcases Nom.alt_cons_dest h5 with hk | h6
  · obtain ⟨s, hp, he⟩ := Nom.map_eq_some.mp hk
    obtain ⟨a, u⟩ := s
    subst he
    exact ⟨'!' :: '[' :: (a ++ ']' :: '(' :: (u ++ [')'])), parse_image_span hp, rfl⟩
  rcases Nom.alt_cons_dest h6 with hk | h7
  · obtain ⟨s, hp, he⟩ := Nom.map_eq_some.mp hk
    obtain ⟨l, u⟩ := s
    subst he
    exact ⟨'[' :: (l ++ ']' :: '(' :: (u ++ [')'])), parse_link_span hp, rfl⟩
  rcases Nom.alt_cons_dest h7 with hk | h8
  · obtain ⟨s, hp, he⟩ := Nom.map_eq_some.mp hk
    subst he
    obtain ⟨c, hic, hdec⟩ := parse_plaintext_span hp
    exact ⟨c, hic, hdec⟩
  · rw [Nom.alt_nil] at h8
    exact absurd h8 (by simp)

/-- Bounded induction for the inline loop of a line: the consumed prefix is
the concatenation of the elements' source spans. -/
theorem many0_inline_span_aux :
    ∀ n (i : List Char), i.length ≤ n → ∀ r (es : MarkdownText),
      Nom.many0 parse_markdown_inline i = some (r, es) →
      ∃ spans : List (List Char),
        i = spans.flatten ++ r ∧ List.Forall₂ IsSpanOf es spans := by
  intro n
  induction n with
  | zero =>
    intro i hlen r es h
    have hi : i = [] := List.eq_nil_of_length_eq_zero (Nat.le_zero.mp hlen)
    subst hi
    rw [Nom.many0_unfold] at h
    cases hq : parse_markdown_inline [] with
    | none =>
      rw [hq] at h
      simp only [Option.some.injEq, Prod.mk.injEq] at h
      obtain ⟨h1, h2⟩ := h
      exact ⟨[], by rw [← h1]; simp, by rw [← h2]; exact List.Forall₂.nil⟩
    | some x =>
      obtain ⟨r1, a⟩ := x
      rw [hq] at h
      simp at h
  | succ n ih =>
    intro i hlen r es h
    rw [Nom.many0_unfold] at h
    cases hq : parse_markdown_inline i with
    | none =>
      rw [hq] at h
      simp only [Option.some.injEq, Prod.mk.injEq] at h
      obtain ⟨h1, h2⟩ := h
      exact ⟨[], by rw [← h1]; rfl, by rw [← h2]; exact List.Forall₂.nil⟩
    | some x =>
      obtain ⟨r1, a⟩ := x
      rw [hq] at h
      simp only at h
      by_cases hlt : r1.length < i.length
      · simp only [hlt, if_true] at h
        cases hm : Nom.many0 parse_markdown_inline r1 with
        | none => rw [hm] at h; exact absurd h (by simp)
        | some y =>
          obtain ⟨r2, as⟩ := y
          rw [hm] at h
          simp only [Option.some.injEq, Prod.mk.injEq] at h
          obtain ⟨h1, h2⟩ := h
          obtain ⟨c1, hc1, hsp1⟩ := parse_markdown_inline_span hq
          obtain ⟨spans2, hc2, hsp2⟩ := ih r1 (by omega) r2 as hm
          refine ⟨c1 :: spans2, ?_, ?_⟩
          · rw [hc1, hc2, h1]
            simp [List.append_assoc]
          · rw [← h2]
            exact List.Forall₂.cons hsp1 hsp2
      · simp [hlt] at h

/-- Claim C9: for every line the inline tokenizer accepts, the produced
elements' source spans concatenate (in order) to exactly the consumed line
content: the span rules re-add their delimiters verbatim and a plain-text
span decodes (backslash escapes reduced to their single literal characters)
to the stored text; the line terminator is consumed but belongs to no
element. -/
theorem C9_theorem (i rest : List Char) (es : MarkdownText)
    (h : parse_markdown_text i = some (rest, es)) :
    ∃ spans : List (List Char),
      i = spans.flatten ++ '\n' :: rest ∧ List.Forall₂ IsSpanOf es spans := by
  obtain ⟨r1, w, hm, ht⟩ := Nom.terminated_eq_some.mp h
  obtain ⟨_, hr1⟩ := Nom.tag_eq_some.mp ht
  obtain ⟨spans, hi, hf⟩ := many0_inline_span_aux i.length i (le_refl _) r1 es hm
  refine ⟨spans, ?_, hf⟩
  rw [hi, hr1]
  rfl

/-- Claim C9 witness: the theorem applied to the line `"a*b*\n"`, whose
tokenization is `[Plaintext "a", Italic "b"]`. -/
theorem C9_witness :
    parse_markdown_text (s2l "a*b*\n") =
      some ([], [MarkdownInline.Plaintext (s2l "a"), MarkdownInline.Italic (s2l "b")]) ∧
    ∃ spans : List (List Char),
      s2l "a*b*\n" = spans.flatten ++ '\n' :: [] ∧
      List.Forall₂ IsSpanOf
        [MarkdownInline.Plaintext (s2l "a"), MarkdownInline.Italic (s2l "b")] spans :=
  ⟨by decide, C9_theorem (s2l "a*b*\n") []
    [MarkdownInline.Plaintext (s2l "a"), MarkdownInline.Italic (s2l "b")] (by decide)⟩
